import Mathlib

/-!
Verification of the supersonic engine core against its specification.

The development shallowly embeds the column-progressive Sort implementation of
`supersonic/cursor/core/sort.cc`, the external-memory spill pipeline
(`BufferingSorter`, `UnbufferedSorter`, `BasicMerger`), the duplicate-key check
of `BoundExtendedSort`, the `Concat` bound expression of
`supersonic/expression/core/string_bound_expressions.cc`, and the projector
substitution of `BoundSort`.

Machine values of a key column are modelled by a type `α` with a linear order:
the C++ code monomorphizes its inner loops per `DataType` via
`TypeSpecialization`, and every supported `cpp_type` carries the total order
computed by `ThreeWayCompare`.  Row indices are natural numbers `0 .. n-1`.
-/

namespace Supersonic

/-- The closed set of data type tags (spec §3, `DataType`). -/
inductive DataType where
  | INT32 | UINT32 | INT64 | UINT64 | FLOAT | DOUBLE | BOOL
  | STRING | BINARY | DATE | DATETIME
deriving DecidableEq, Repr

/-- Attribute nullability (spec §3). -/
inductive Nullability where
  | NULLABLE | NOT_NULLABLE
deriving DecidableEq, Repr

/-- Error / return codes used by the claims (spec §6, "Error codes"). -/
inductive ReturnCode where
  | OK
  | ERROR_MEMORY_EXCEEDED
  | ERROR_TEMP_FILE_CREATION_ERROR
  | ERROR_NOT_IMPLEMENTED
  | ERROR_INVALID_ARGUMENT_VALUE
  | INTERRUPTED
  | WAITING_ON_BARRIER
  | ERROR_OTHER
deriving DecidableEq, Repr

/-- A row range `[lo, hi)` that still needs sorting by further key columns
(struct `Range` in sort.cc, fields `from` / `to`; `from` is a Lean keyword so
the fields are named `lo` / `hi`). -/
structure Range where
  lo : Nat
  hi : Nat
deriving DecidableEq, Repr

/-- One bound sort key: the key column's cell data, its optional null vector
(`is_null == NULL` in the code means the column is not nullable), and the
direction flag (`sort_order.column_order(i) == DESCENDING`).  This packages
what `SortPermutation` reads from `BoundSortOrder` and the input `View` for
one key column. -/
structure SortKeyCol (α : Type) where
  data : Nat → α
  isNull : Option (Nat → Bool)
  descending : Bool

variable {α : Type} [LinearOrder α]

/-- `LessThanComparator<type, descending>` from sort.cc (lines 138-149):
`(descending ? ThreeWayCompare(data[b], data[a]) : ThreeWayCompare(data[a], data[b])) == RESULT_LESS`. -/
def lessThanComparator (descending : Bool) (data : Nat → α) (a b : Nat) : Bool :=
  if descending then decide (data b < data a) else decide (data a < data b)

/-- `NullPartitionPredicate<descending>` from sort.cc (lines 161-167):
`is_null[i] != descending`. -/
def nullPartitionPredicate (descending : Bool) (isNull : Nat → Bool) (i : Nat) : Bool :=
  isNull i != descending

/-- `Permutation::at` — reads the row index stored at position `k`. -/
def permutationAt (p : List Nat) (k : Nat) : Nat :=
  p.getD k 0

/-- Modelled from the spec: class `Permutation` (declared in
`supersonic/cursor/core/sort.h`, which is not part of the provided sources).
Spec §3: "Permutation — an array of row indices of length n; initially the
identity [0..n). Sorting reorders the permutation"; §4.6.1 and §8 require the
ordering to be stable ("resolving ties by stable insertion order (p's initial
identity)").  `Sort(from, to, comparator)` therefore stably sorts the
subrange `[lo, hi)` of the permutation by the strict comparator `lt`. -/
def permutationSort (p : List Nat) (lo hi : Nat) (lt : Nat → Nat → Bool) : List Nat :=
  p.take lo ++ ((p.drop lo).take (hi - lo)).mergeSort (fun a b => !(lt b a)) ++ p.drop hi

/-- Modelled from the spec: `Permutation::Partition` (sort.h, not in the
provided sources).  Spec §3: "partition returns a pivot p such that predicate
holds for indices [0,p)"; stability follows from the spec's stability
invariant.  Rows of `[lo, hi)` satisfying `pred` are moved (stably) to the
front of the subrange; the returned count is relative to `lo`. -/
def permutationPartition (p : List Nat) (lo hi : Nat) (pred : Nat → Bool) :
    List Nat × Nat :=
  let s := (p.drop lo).take (hi - lo)
  (p.take lo ++ s.filter pred ++ s.filter (fun i => !(pred i)) ++ p.drop hi,
   (s.filter pred).length)

/-- The equal-run scan of `SortNonNullRange` (sort.cc lines 178-189): walks the
just-sorted subrange `[currentFrom, hi)` and appends to `target` one `Range`
for every maximal run (of length > 1) of rows whose key cells compare equal. -/
def collectEqualRanges (lt : Nat → Nat → Bool) (p : List Nat)
    (currentFrom j hi : Nat) (target : List Range) : List Range :=
  if _h : j < hi then
    if lt (permutationAt p currentFrom) (permutationAt p j) then
      collectEqualRanges lt p j (j + 1) hi
        (if j - currentFrom > 1 then target ++ [⟨currentFrom, j⟩] else target)
    else
      collectEqualRanges lt p currentFrom (j + 1) hi target
  else
    if hi - currentFrom > 1 then target ++ [⟨currentFrom, hi⟩] else target
termination_by hi - j

/-- `SortNonNullRange<type, descending>` (sort.cc lines 169-190): sorts the
subrange `[source.lo, source.hi)` of the permutation by the typed comparator
and, unless this is the last key column, pushes the maximal equal runs onto
`target`. -/
def SortNonNullRange (descending : Bool) (data : Nat → α) (source : Range)
    (target : List Range) (p : List Nat) (isLastColumn : Bool) :
    List Nat × List Range :=
  let lt := lessThanComparator descending data
  let p1 := permutationSort p source.lo source.hi lt
  if isLastColumn then (p1, target)
  else (p1, collectEqualRanges lt p1 source.lo (source.lo + 1) source.hi target)

/-- `SortRange<type, descending, is_always_not_null>` (sort.cc lines 192-227).
The `is_always_not_null` template flag corresponds to `isNull = none`.  For a
nullable column the subrange is first partitioned by
`NullPartitionPredicate`; the NULL side is pushed as a pending range (unless
last column) and the non-NULL side is sorted by `SortNonNullRange`. -/
def SortRange (descending : Bool) (data : Nat → α) (isNull : Option (Nat → Bool))
    (source : Range) (target : List Range) (p : List Nat) (isLastColumn : Bool) :
    List Nat × List Range :=
  match isNull with
  | none => SortNonNullRange descending data source target p isLastColumn
  | some nl =>
    let pr := permutationPartition p source.lo source.hi
        (nullPartitionPredicate descending nl)
    let st1 : List Nat × List Range :=
      if pr.2 > 1 then
        if descending then
          SortNonNullRange true data ⟨source.lo, source.lo + pr.2⟩ target pr.1
            isLastColumn
        else
          (pr.1, if !isLastColumn then target ++ [⟨source.lo, source.lo + pr.2⟩]
                 else target)
      else (pr.1, target)
    if source.hi - pr.2 > 1 then
      if descending then
        (st1.1, if !isLastColumn then st1.2 ++ [⟨source.lo + pr.2, source.hi⟩]
                else st1.2)
      else
        SortNonNullRange false data ⟨source.lo + pr.2, source.hi⟩ st1.2 st1.1
          isLastColumn
    else st1

/-- `SortColumn` / `SortColumnResolved` (sort.cc lines 229-273): runs
`SortRange` over every pending source range.  The C++ dispatch over
`(descending, is_null == NULL)` only selects monomorphized instantiations of
the same algorithm, so it is collapsed here. -/
def SortColumn (descending : Bool) (data : Nat → α) (isNull : Option (Nat → Bool))
    (source : List Range) (target : List Range) (p : List Nat)
    (isLastColumn : Bool) : List Nat × List Range :=
  source.foldl
    (fun st r => SortRange descending data isNull r st.2 st.1 isLastColumn)
    (p, target)

/-- The column loop of `SortPermutation` (sort.cc lines 769-783): processes the
key columns in declared order, double-buffering the range worklist, and stops
early when no ranges are left. -/
def sortColumnsLoop : List (SortKeyCol α) → List Nat → List Range → List Nat
  | [], p, _ => p
  | k :: rest, p, sourceRanges =>
    let st := SortColumn k.descending k.data k.isNull sourceRanges [] p rest.isEmpty
    if st.2.isEmpty then st.1 else sortColumnsLoop rest st.1 st.2

/-- `SortPermutation` (sort.cc lines 760-784).  The permutation argument is
always freshly constructed as the identity of size `input.row_count()`
(`UnbufferedSorter::SortView`, line 434), so the model takes the row count and
returns the reordered permutation. -/
def SortPermutation (keys : List (SortKeyCol α)) (n : Nat) : List Nat :=
  sortColumnsLoop keys (List.range n) [⟨0, n⟩]

/-! ### The specification's sort order

Spec §4.6.1: keys are compared in declared precedence, honoring per-key
direction; "NULLs compare equal to each other and smaller than anything
non-NULL" (sort.cc lines 44-47). -/

/-- The key cell of row `x`: `none` iff the row is NULL in this column. -/
def cellOf (k : SortKeyCol α) (x : Nat) : Option α :=
  match k.isNull with
  | none => some (k.data x)
  | some nl => if nl x then none else some (k.data x)

/-- Three-way comparison of two cells: NULLs equal each other and precede any
non-NULL value (before the direction flip). -/
def optCmp : Option α → Option α → Ordering
  | none, none => Ordering.eq
  | none, some _ => Ordering.lt
  | some _, none => Ordering.gt
  | some a, some b => compare a b

/-- Three-way comparison of two rows under one sort key, honoring direction. -/
def cellCmp (k : SortKeyCol α) (x y : Nat) : Ordering :=
  if k.descending then (optCmp (cellOf k x) (cellOf k y)).swap
  else optCmp (cellOf k x) (cellOf k y)

/-- Lexicographic three-way comparison of two rows under a bound sort order:
keys in declared precedence. -/
def lexCmp : List (SortKeyCol α) → Nat → Nat → Ordering
  | [], _, _ => Ordering.eq
  | k :: rest, x, y =>
    match cellCmp k x y with
    | Ordering.eq => lexCmp rest x y
    | o => o

/-- Row `x` is at most row `y` under the sort order. -/
def lexLe (keys : List (SortKeyCol α)) (x y : Nat) : Prop :=
  lexCmp keys x y ≠ Ordering.gt

/-- Rows `x` and `y` compare equal under all sort keys. -/
def lexEq (keys : List (SortKeyCol α)) (x y : Nat) : Prop :=
  lexCmp keys x y = Ordering.eq

/-- Row `x` is strictly below row `y` under the sort order. -/
def lexLt (keys : List (SortKeyCol α)) (x y : Nat) : Prop :=
  lexCmp keys x y = Ordering.lt

/-- The strict linear order realized by a stable sort: sort-order-strictly-less,
or equal under all keys and earlier in the input. -/
def sLt (keys : List (SortKeyCol α)) (x y : Nat) : Prop :=
  lexLt keys x y ∨ (lexEq keys x y ∧ x < y)

/-! ### Ordering lemmas for the specification order -/

theorem swap_eq_eq_iff {o : Ordering} : o.swap = Ordering.eq ↔ o = Ordering.eq := by
  cases o <;> simp [Ordering.swap]

theorem swap_eq_lt_iff {o : Ordering} : o.swap = Ordering.lt ↔ o = Ordering.gt := by
  cases o <;> simp [Ordering.swap]

theorem swap_eq_gt_iff {o : Ordering} : o.swap = Ordering.gt ↔ o = Ordering.lt := by
  cases o <;> simp [Ordering.swap]

theorem optCmp_refl (x : Option α) : optCmp x x = Ordering.eq := by
  cases x with
  | none => rfl
  | some a => simp [optCmp, compare_eq_iff_eq]

theorem optCmp_eq_iff {x y : Option α} : optCmp x y = Ordering.eq ↔ x = y := by
  cases x <;> cases y <;> simp [optCmp, compare_eq_iff_eq]

theorem optCmp_swap (x y : Option α) : (optCmp x y).swap = optCmp y x := by
  cases x with
  | none => cases y <;> rfl
  | some a =>
    cases y with
    | none => rfl
    | some b =>
      show (compare a b).swap = compare b a
      rcases lt_trichotomy a b with h | h | h
      · rw [compare_lt_iff_lt.2 h, compare_gt_iff_gt.2 h]; rfl
      · rw [compare_eq_iff_eq.2 h, compare_eq_iff_eq.2 h.symm]; rfl
      · rw [compare_gt_iff_gt.2 h, compare_lt_iff_lt.2 h]; rfl

theorem optCmp_lt_trans {x y z : Option α} (h1 : optCmp x y = Ordering.lt)
    (h2 : optCmp y z = Ordering.lt) : optCmp x z = Ordering.lt := by
  cases x <;> cases y <;> cases z <;>
    simp_all [optCmp, compare_lt_iff_lt, compare_eq_iff_eq]
  exact lt_trans h1 h2

theorem cellCmp_refl (k : SortKeyCol α) (x : Nat) : cellCmp k x x = Ordering.eq := by
  unfold cellCmp
  rw [optCmp_refl]
  cases k.descending <;> rfl

theorem cellCmp_eq_iff {k : SortKeyCol α} {x y : Nat} :
    cellCmp k x y = Ordering.eq ↔ cellOf k x = cellOf k y := by
  unfold cellCmp
  cases k.descending with
  | false => simpa using optCmp_eq_iff
  | true => simpa [swap_eq_eq_iff] using optCmp_eq_iff

theorem cellCmp_swap (k : SortKeyCol α) (x y : Nat) :
    (cellCmp k x y).swap = cellCmp k y x := by
  unfold cellCmp
  cases hd : k.descending
  · simp only [Bool.false_eq_true, if_false]
    exact optCmp_swap (cellOf k x) (cellOf k y)
  · simp only [if_true]
    rw [Ordering.swap_swap, ← optCmp_swap (cellOf k y) (cellOf k x)]

theorem cellCmp_lt_trans {k : SortKeyCol α} {x y z : Nat}
    (h1 : cellCmp k x y = Ordering.lt) (h2 : cellCmp k y z = Ordering.lt) :
    cellCmp k x z = Ordering.lt := by
  unfold cellCmp at h1 h2 ⊢
  cases hd : k.descending <;> rw [hd] at h1 h2 <;>
    simp only [Bool.false_eq_true, if_false, if_true] at h1 h2 ⊢
  · exact optCmp_lt_trans h1 h2
  · rw [swap_eq_lt_iff] at h1 h2 ⊢
    have g1 : optCmp (cellOf k y) (cellOf k x) = Ordering.lt := by
      rw [← optCmp_swap, h1]; rfl
    have g2 : optCmp (cellOf k z) (cellOf k y) = Ordering.lt := by
      rw [← optCmp_swap, h2]; rfl
    have g3 := optCmp_lt_trans g2 g1
    rw [← optCmp_swap (cellOf k z) (cellOf k x), g3]
    rfl

theorem cellCmp_congr_left {k : SortKeyCol α} {x y : Nat}
    (h : cellCmp k x y = Ordering.eq) (z : Nat) : cellCmp k x z = cellCmp k y z := by
  have := cellCmp_eq_iff.1 h
  unfold cellCmp
  rw [this]

theorem cellCmp_congr_right {k : SortKeyCol α} {y z : Nat}
    (h : cellCmp k y z = Ordering.eq) (x : Nat) : cellCmp k x y = cellCmp k x z := by
  have := cellCmp_eq_iff.1 h
  unfold cellCmp
  rw [this]

theorem lexCmp_refl (keys : List (SortKeyCol α)) (x : Nat) :
    lexCmp keys x x = Ordering.eq := by
  induction keys with
  | nil => rfl
  | cons k rest ih => simp [lexCmp, cellCmp_refl, ih]

theorem lexCmp_swap (keys : List (SortKeyCol α)) (x y : Nat) :
    (lexCmp keys x y).swap = lexCmp keys y x := by
  induction keys with
  | nil => rfl
  | cons k rest ih =>
    have hsw : cellCmp k y x = (cellCmp k x y).swap := (cellCmp_swap k x y).symm
    simp only [lexCmp, hsw]
    rcases h : cellCmp k x y with _ | _ | _
    · rfl
    · exact ih
    · rfl

theorem lexCmp_append (k1 k2 : List (SortKeyCol α)) (x y : Nat) :
    lexCmp (k1 ++ k2) x y =
      match lexCmp k1 x y with
      | Ordering.eq => lexCmp k2 x y
      | o => o := by
  induction k1 with
  | nil => simp [lexCmp]
  | cons k rest ih =>
    simp only [List.cons_append, lexCmp]
    rcases h : cellCmp k x y with _ | _ | _ <;> simp [ih]

theorem lexCmp_lt_trans {keys : List (SortKeyCol α)} {x y z : Nat}
    (h1 : lexCmp keys x y = Ordering.lt) (h2 : lexCmp keys y z = Ordering.lt) :
    lexCmp keys x z = Ordering.lt := by
  induction keys with
  | nil => simp [lexCmp] at h1
  | cons k rest ih =>
    simp only [lexCmp] at h1 h2 ⊢
    rcases hxy : cellCmp k x y with _ | _ | _ <;> rw [hxy] at h1
    · rcases hyz : cellCmp k y z with _ | _ | _ <;> rw [hyz] at h2
      · rw [cellCmp_lt_trans hxy hyz]
      · rw [← cellCmp_congr_right hyz x, hxy]
      · exact absurd h2 (by simp)
    · rcases hyz : cellCmp k y z with _ | _ | _ <;> rw [hyz] at h2
      · rw [cellCmp_congr_left hxy z, hyz]
      · rw [cellCmp_congr_left hxy z, hyz]
        exact ih h1 h2
      · exact absurd h2 (by simp)
    · exact absurd h1 (by simp)

theorem lexCmp_congr_left {keys : List (SortKeyCol α)} {x y : Nat}
    (h : lexCmp keys x y = Ordering.eq) (z : Nat) :
    lexCmp keys x z = lexCmp keys y z := by
  induction keys with
  | nil => rfl
  | cons k rest ih =>
    simp only [lexCmp] at h ⊢
    rcases hxy : cellCmp k x y with _ | _ | _ <;> rw [hxy] at h
    · exact absurd h (by simp)
    · rw [cellCmp_congr_left hxy z]
      rcases hyz : cellCmp k y z with _ | _ | _ <;> simp [ih h]
    · exact absurd h (by simp)

theorem lexCmp_congr_right {keys : List (SortKeyCol α)} {y z : Nat}
    (h : lexCmp keys y z = Ordering.eq) (x : Nat) :
    lexCmp keys x y = lexCmp keys x z := by
  have h' : lexCmp keys z y = Ordering.eq := by
    rw [← lexCmp_swap, h]; rfl
  have g2 := congrArg Ordering.swap (lexCmp_congr_left h' x)
  rw [lexCmp_swap, lexCmp_swap] at g2
  exact g2.symm

/-! ### The typed comparator is a strict weak (indeed total) order on cells -/

theorem ltc_irrefl (descending : Bool) (data : Nat → α) (a : Nat) :
    lessThanComparator descending data a a = false := by
  unfold lessThanComparator
  cases descending <;> simp

theorem ltc_asymm {descending : Bool} {data : Nat → α} {a b : Nat}
    (h : lessThanComparator descending data a b = true) :
    lessThanComparator descending data b a = false := by
  unfold lessThanComparator at *
  cases descending <;> simp_all <;> exact le_of_lt h

theorem ltc_le_trans {descending : Bool} {data : Nat → α} {a b c : Nat}
    (h1 : lessThanComparator descending data b a = false)
    (h2 : lessThanComparator descending data c b = false) :
    lessThanComparator descending data c a = false := by
  unfold lessThanComparator at *
  cases descending <;> simp_all
  · exact le_trans h1 h2
  · exact le_trans h2 h1

theorem ltc_lt_of_le_of_lt {descending : Bool} {data : Nat → α} {a b c : Nat}
    (h1 : lessThanComparator descending data b a = false)
    (h2 : lessThanComparator descending data b c = true) :
    lessThanComparator descending data a c = true := by
  unfold lessThanComparator at *
  cases descending <;> simp_all
  · exact lt_of_le_of_lt h1 h2
  · exact lt_of_lt_of_le h2 h1

theorem ltc_lt_of_lt_of_le {descending : Bool} {data : Nat → α} {a b c : Nat}
    (h1 : lessThanComparator descending data a b = true)
    (h2 : lessThanComparator descending data c b = false) :
    lessThanComparator descending data a c = true := by
  unfold lessThanComparator at *
  cases descending <;> simp_all
  · exact lt_of_lt_of_le h1 h2
  · exact lt_of_le_of_lt h2 h1

theorem ltc_trans {descending : Bool} {data : Nat → α} {a b c : Nat}
    (h1 : lessThanComparator descending data a b = true)
    (h2 : lessThanComparator descending data b c = true) :
    lessThanComparator descending data a c = true :=
  ltc_lt_of_lt_of_le h1 (ltc_asymm h2)

theorem ltc_tie_iff {descending : Bool} {data : Nat → α} {a b : Nat} :
    (lessThanComparator descending data a b = false ∧
     lessThanComparator descending data b a = false) ↔ data a = data b := by
  unfold lessThanComparator
  cases descending <;> simp <;> constructor
  · rintro ⟨h1, h2⟩; exact le_antisymm h2 h1
  · intro h; simp [h]
  · rintro ⟨h1, h2⟩; exact le_antisymm h1 h2
  · intro h; simp [h]

/-! ### Connecting the typed comparator to the specification's cell order -/

theorem cellCmp_lt_iff_ltc {k : SortKeyCol α} {x y : Nat}
    (hx : cellOf k x = some (k.data x)) (hy : cellOf k y = some (k.data y)) :
    (cellCmp k x y = Ordering.lt ↔
      lessThanComparator k.descending k.data x y = true) := by
  unfold cellCmp lessThanComparator
  rw [hx, hy]
  cases k.descending <;> simp [optCmp, swap_eq_lt_iff]
  · exact compare_lt_iff_lt
  · exact compare_gt_iff_gt

theorem cellCmp_eq_iff_data {k : SortKeyCol α} {x y : Nat}
    (hx : cellOf k x = some (k.data x)) (hy : cellOf k y = some (k.data y)) :
    (cellCmp k x y = Ordering.eq ↔ k.data x = k.data y) := by
  rw [cellCmp_eq_iff, hx, hy]
  simp

theorem cellCmp_null_null {k : SortKeyCol α} {x y : Nat}
    (hx : cellOf k x = none) (hy : cellOf k y = none) :
    cellCmp k x y = Ordering.eq := by
  rw [cellCmp_eq_iff, hx, hy]

theorem cellCmp_null_some_asc {k : SortKeyCol α} {x y : Nat}
    (hd : k.descending = false) (hx : cellOf k x = none) {a : α}
    (hy : cellOf k y = some a) : cellCmp k x y = Ordering.lt := by
  unfold cellCmp
  rw [hd, hx, hy]
  rfl

theorem cellCmp_some_null_desc {k : SortKeyCol α} {x y : Nat}
    (hd : k.descending = true) {a : α} (hx : cellOf k x = some a)
    (hy : cellOf k y = none) : cellCmp k x y = Ordering.lt := by
  unfold cellCmp
  rw [hd, hx, hy]
  rfl

theorem cellCmp_mixed_ne_eq {k : SortKeyCol α} {x y : Nat}
    (hx : cellOf k x = none) {a : α} (hy : cellOf k y = some a) :
    cellCmp k x y ≠ Ordering.eq := by
  simp only [Ne, cellCmp_eq_iff, hx, hy]
  simp

/-! ### Slice decomposition of the permutation -/

theorem take_of_decomp {u : List Nat} (s v : List Nat) {lo : Nat}
    (hu : u.length = lo) : (u ++ s ++ v).take lo = u := by
  rw [List.append_assoc]
  exact List.take_left' hu

theorem drop_lo_of_decomp {u : List Nat} (s v : List Nat) {lo : Nat}
    (hu : u.length = lo) : (u ++ s ++ v).drop lo = s ++ v := by
  rw [List.append_assoc]
  exact List.drop_left' hu

theorem slice_of_decomp {u s : List Nat} (v : List Nat) {lo hi : Nat}
    (hu : u.length = lo) (hs : s.length = hi - lo) :
    ((u ++ s ++ v).drop lo).take (hi - lo) = s := by
  rw [drop_lo_of_decomp s v hu]
  exact List.take_left' hs

theorem drop_hi_of_decomp {u s : List Nat} (v : List Nat) {lo hi : Nat}
    (hu : u.length = lo) (hs : s.length = hi - lo) (hlh : lo ≤ hi) :
    (u ++ s ++ v).drop hi = v := by
  apply List.drop_left'
  rw [List.length_append, hu, hs]
  omega

theorem permutationAt_middle {u s : List Nat} (v : List Nat) {lo hi i : Nat}
    (hu : u.length = lo) (hs : s.length = hi - lo) (hli : lo ≤ i) (hih : i < hi) :
    permutationAt (u ++ s ++ v) i = s.getD (i - lo) 0 := by
  subst hu
  have hslt : i - u.length < s.length := by omega
  have hlen : i < (u ++ s ++ v).length := by
    simp [List.length_append]; omega
  unfold permutationAt
  rw [List.getD_eq_getElem _ _ hlen, List.getD_eq_getElem _ _ hslt]
  have h1 : i < (u ++ s).length := by rw [List.length_append]; omega
  rw [List.getElem_append_left h1, List.getElem_append_right (by omega)]

theorem permutationAt_before {u s : List Nat} (v : List Nat) {lo i : Nat}
    (hu : u.length = lo) (hil : i < lo) :
    permutationAt (u ++ s ++ v) i = u.getD i 0 := by
  have hiu : i < u.length := by omega
  have hlen : i < (u ++ s ++ v).length := by
    simp [List.length_append]; omega
  unfold permutationAt
  rw [List.getD_eq_getElem _ _ hlen, List.getD_eq_getElem _ _ hiu]
  have h1 : i < (u ++ s).length := by rw [List.length_append]; omega
  rw [List.getElem_append_left h1, List.getElem_append_left hiu]

theorem permutationAt_after {u s : List Nat} (v : List Nat) {lo hi i : Nat}
    (hu : u.length = lo) (hs : s.length = hi - lo) (hlh : lo ≤ hi) (hih : hi ≤ i) :
    permutationAt (u ++ s ++ v) i = v.getD (i - hi) 0 := by
  have hus : (u ++ s).length = hi := by
    rw [List.length_append, hu, hs]; omega
  unfold permutationAt
  by_cases hv : i - hi < v.length
  · have hlen : i < ((u ++ s) ++ v).length := by
      rw [List.length_append, hus]; omega
    rw [List.getD_eq_getElem _ _ hlen, List.getD_eq_getElem _ _ hv]
    rw [List.getElem_append_right (by omega)]
    congr 1
    rw [hus]
  · have h1 : ((u ++ s) ++ v).length ≤ i := by
      rw [List.length_append, hus]; omega
    rw [List.getD_eq_default _ _ h1, List.getD_eq_default _ _ (by omega)]

/-! ### Stability of the modelled Permutation::Sort -/

theorem pair_sublist_of_increasing {s : List Nat} (hs : s.Pairwise (· < ·))
    {x y : Nat} (hx : x ∈ s) (hy : y ∈ s) (hxy : x < y) : [x, y].Sublist s := by
  induction s with
  | nil => cases hx
  | cons a t ih =>
    rcases List.pairwise_cons.1 hs with ⟨ha, ht⟩
    rcases List.mem_cons.1 hx with hx1 | hx2
    · subst hx1
      have hyt : y ∈ t := by
        rcases List.mem_cons.1 hy with h | h
        · omega
        · exact h
      exact List.cons_sublist_cons.2 (List.singleton_sublist.2 hyt)
    · have hyt : y ∈ t := by
        rcases List.mem_cons.1 hy with h | h
        · exfalso; have := ha x hx2; omega
        · exact h
      exact List.Sublist.cons a (ih ht hx2 hyt)

theorem pair_sublist_indices {l : List Nat} {a b : Nat} (h : [a, b].Sublist l) :
    ∃ i j, ∃ (hi : i < l.length) (hj : j < l.length),
      i < j ∧ l[i] = a ∧ l[j] = b := by
  induction l with
  | nil => simp at h
  | cons c t ih =>
    rcases h with _ | ⟨_, h'⟩ | ⟨_, h'⟩
    · rcases ih (by assumption) with ⟨i, j, hi, hj, hij, ha, hb⟩
      exact ⟨i + 1, j + 1, by simpa using hi, by simpa using hj, by omega,
        by simpa using ha, by simpa using hb⟩
    · rcases List.singleton_sublist.1 (by assumption) with hb
      rcases List.mem_iff_getElem.1 hb with ⟨m, hm, hmb⟩
      exact ⟨0, m + 1, by simp, by simpa using hm, by omega, rfl,
        by simpa using hmb⟩

/-- The modelled `Permutation::Sort` is a stable sort: on a strictly increasing
list of row indices, every pair of the output is either strictly ordered by the
comparator, or tied and in increasing (original) index order. -/
theorem mergeSort_pairwise_stable {lt : Nat → Nat → Bool}
    (Hasym : ∀ a b, lt a b = true → lt b a = false)
    (Hle_trans : ∀ a b c, lt b a = false → lt c b = false → lt c a = false)
    {s : List Nat} (hs : s.Pairwise (· < ·)) :
    (s.mergeSort (fun a b => !(lt b a))).Pairwise
      (fun x y => lt x y = true ∨ (lt x y = false ∧ lt y x = false ∧ x < y)) := by
  have htrans : ∀ a b c : Nat,
      (fun a b => !(lt b a)) a b = true → (fun a b => !(lt b a)) b c = true →
      (fun a b => !(lt b a)) a c = true := by
    intro a b c h1 h2
    simp only [Bool.not_eq_true'] at h1 h2 ⊢
    exact Hle_trans a b c h1 h2
  have htot : ∀ a b : Nat,
      ((fun a b => !(lt b a)) a b || (fun a b => !(lt b a)) b a) = true := by
    intro a b
    simp only [Bool.or_eq_true, Bool.not_eq_true']
    rcases hab : lt a b with _ | _
    · right; rfl
    · left; exact Hasym a b hab
  have hsorted := List.sorted_mergeSort htrans htot s
  have hperm := List.mergeSort_perm s (fun a b => !(lt b a))
  have hnodup : s.Nodup := hs.imp (fun h => Nat.ne_of_lt h)
  have hnodup' : (s.mergeSort (fun a b => !(lt b a))).Nodup := hperm.symm.nodup hnodup
  rw [List.pairwise_iff_getElem] at hsorted ⊢
  intro i j hi hj hij
  have hle_ij := hsorted i j hi hj hij
  simp only [Bool.not_eq_true'] at hle_ij
  rcases hltij : lt (s.mergeSort (fun a b => !(lt b a)))[i]
      (s.mergeSort (fun a b => !(lt b a)))[j] with _ | _
  · right
    refine ⟨rfl, hle_ij, ?_⟩
    have hne : (s.mergeSort (fun a b => !(lt b a)))[i] ≠
        (s.mergeSort (fun a b => !(lt b a)))[j] := by
      intro hcontra
      exact absurd (hnodup'.getElem_inj_iff.1 hcontra) (by omega)
    rcases Nat.lt_trichotomy (s.mergeSort (fun a b => !(lt b a)))[i]
        (s.mergeSort (fun a b => !(lt b a)))[j] with h | h | h
    · exact h
    · exact absurd h hne
    · exfalso
      have hmi : (s.mergeSort (fun a b => !(lt b a)))[i] ∈ s :=
        hperm.mem_iff.1 (List.getElem_mem hi)
      have hmj : (s.mergeSort (fun a b => !(lt b a)))[j] ∈ s :=
        hperm.mem_iff.1 (List.getElem_mem hj)
      have hsub : [(s.mergeSort (fun a b => !(lt b a)))[j],
          (s.mergeSort (fun a b => !(lt b a)))[i]].Sublist s :=
        pair_sublist_of_increasing hs hmj hmi h
      have hpairle : [(s.mergeSort (fun a b => !(lt b a)))[j],
          (s.mergeSort (fun a b => !(lt b a)))[i]].Pairwise
            (fun a b => (fun a b => !(lt b a)) a b = true) := by
        refine List.pairwise_cons.2 ⟨?_, List.pairwise_singleton _ _⟩
        intro b hb
        rcases List.mem_singleton.1 hb with rfl
        simp [hltij]
      have hsub2 := List.sublist_mergeSort htrans htot hpairle hsub
      rcases pair_sublist_indices hsub2 with ⟨i', j', hi', hj', hij', hy', hx'⟩
      have hi'j : i' = j := hnodup'.getElem_inj_iff.1 hy'
      have hj'i : j' = i := hnodup'.getElem_inj_iff.1 hx'
      omega
  · left; rfl

/-! ### Specification of the equal-run scan -/

theorem collect_spec_terminal {lt : Nat → Nat → Bool} {p : List Nat} {hi : Nat}
    (Hlt_of_le_of_lt : ∀ a b c : Nat, lt b a = false → lt b c = true → lt a c = true)
    (cf : Nat) (target : List Range) (hcfhi : cf < hi)
    (Hrun : ∀ i, cf ≤ i → i < hi →
      lt (permutationAt p cf) (permutationAt p i) = false ∧
      lt (permutationAt p i) (permutationAt p cf) = false) :
    ∃ rs, collectEqualRanges lt p cf hi hi target = target ++ rs ∧
      (∀ q ∈ rs, cf ≤ q.lo ∧ q.lo < q.hi ∧ q.hi ≤ hi) ∧
      rs.Pairwise (fun a b => a.hi ≤ b.lo) ∧
      (∀ q ∈ rs, ∀ i1 i2, q.lo ≤ i1 → i1 ≤ i2 → i2 < q.hi →
        lt (permutationAt p i1) (permutationAt p i2) = false ∧
        lt (permutationAt p i2) (permutationAt p i1) = false) ∧
      (∀ i1 i2, cf ≤ i1 → i1 < i2 → i2 < hi →
        lt (permutationAt p i1) (permutationAt p i2) = false →
        lt (permutationAt p i2) (permutationAt p i1) = false →
        ∃ q ∈ rs, q.lo ≤ i1 ∧ i2 < q.hi) := by
  have htie : ∀ i1 i2, cf ≤ i1 → i1 ≤ i2 → i2 < hi →
      lt (permutationAt p i1) (permutationAt p i2) = false ∧
      lt (permutationAt p i2) (permutationAt p i1) = false := by
    intro i1 i2 h1 h2 h3
    rcases Hrun i1 h1 (by omega) with ⟨ha1, hb1⟩
    rcases Hrun i2 (by omega) h3 with ⟨ha2, hb2⟩
    constructor
    · rcases h12 : lt (permutationAt p i1) (permutationAt p i2) with _ | _
      · rfl
      · exfalso
        have := Hlt_of_le_of_lt (permutationAt p cf) (permutationAt p i1)
          (permutationAt p i2) hb1 h12
        rw [this] at ha2; cases ha2
    · rcases h21 : lt (permutationAt p i2) (permutationAt p i1) with _ | _
      · rfl
      · exfalso
        have := Hlt_of_le_of_lt (permutationAt p cf) (permutationAt p i2)
          (permutationAt p i1) hb2 h21
        rw [this] at ha1; cases ha1
  rw [collectEqualRanges]
  rw [dif_neg (by omega : ¬ hi < hi)]
  by_cases hbig : hi - cf > 1
  · rw [if_pos hbig]
    refine ⟨[⟨cf, hi⟩], rfl, ?_, ?_, ?_, ?_⟩
    · intro q hq
      rcases List.mem_singleton.1 hq with rfl
      refine ⟨le_refl _, ?_, le_refl _⟩
      show cf < hi
      omega
    · exact List.pairwise_singleton _ _
    · intro q hq
      rcases List.mem_singleton.1 hq with rfl
      exact htie
    · intro i1 i2 h1 h2 h3 _ _
      exact ⟨⟨cf, hi⟩, List.mem_singleton.2 rfl, h1, h3⟩
  · rw [if_neg hbig]
    refine ⟨[], (List.append_nil target).symm, by simp, by simp, by simp, ?_⟩
    intro i1 i2 h1 h2 h3 _ _
    omega

theorem collectEqualRanges_spec {lt : Nat → Nat → Bool} {p : List Nat} {lo hi : Nat}
    (Hasym : ∀ a b, lt a b = true → lt b a = false)
    (Hlt_of_le_of_lt : ∀ a b c : Nat, lt b a = false → lt b c = true → lt a c = true)
    (Hlt_of_lt_of_le : ∀ a b c : Nat, lt a b = true → lt c b = false → lt a c = true)
    (Hsorted : ∀ i1 i2, lo ≤ i1 → i1 ≤ i2 → i2 < hi →
      lt (permutationAt p i2) (permutationAt p i1) = false) :
    ∀ (fuel cf j : Nat) (target : List Range), hi - j ≤ fuel → lo ≤ cf → cf < j →
    j ≤ hi →
    (∀ i, cf ≤ i → i < j →
      lt (permutationAt p cf) (permutationAt p i) = false ∧
      lt (permutationAt p i) (permutationAt p cf) = false) →
    (∀ i, lo ≤ i → i < cf → lt (permutationAt p i) (permutationAt p cf) = true) →
    ∃ rs, collectEqualRanges lt p cf j hi target = target ++ rs ∧
      (∀ q ∈ rs, cf ≤ q.lo ∧ q.lo < q.hi ∧ q.hi ≤ hi) ∧
      rs.Pairwise (fun a b => a.hi ≤ b.lo) ∧
      (∀ q ∈ rs, ∀ i1 i2, q.lo ≤ i1 → i1 ≤ i2 → i2 < q.hi →
        lt (permutationAt p i1) (permutationAt p i2) = false ∧
        lt (permutationAt p i2) (permutationAt p i1) = false) ∧
      (∀ i1 i2, cf ≤ i1 → i1 < i2 → i2 < hi →
        lt (permutationAt p i1) (permutationAt p i2) = false →
        lt (permutationAt p i2) (permutationAt p i1) = false →
        ∃ q ∈ rs, q.lo ≤ i1 ∧ i2 < q.hi) := by
  have Hirr : ∀ a, lt a a = false := by
    intro a
    by_cases h : lt a a = true
    · exact Hasym a a h
    · simpa using h
  intro fuel
  induction fuel with
  | zero =>
    intro cf j target hfuel hlocf hcfj hjhi Hrun Hstart
    have hj : j = hi := by omega
    subst hj
    exact collect_spec_terminal Hlt_of_le_of_lt cf target (by omega) Hrun
  | succ f ih =>
    intro cf j target hfuel hlocf hcfj hjhi Hrun Hstart
    by_cases hjh : j < hi
    · rw [collectEqualRanges]
      rw [dif_pos hjh]
      rcases hcmp : lt (permutationAt p cf) (permutationAt p j) with _ | _
      · -- run continues through j
        rw [if_neg (by simp [hcmp])]
        have Hrun' : ∀ i, cf ≤ i → i < j + 1 →
            lt (permutationAt p cf) (permutationAt p i) = false ∧
            lt (permutationAt p i) (permutationAt p cf) = false := by
          intro i h1 h2
          rcases Nat.lt_or_ge i j with h | h
          · exact Hrun i h1 h
          · have hij : i = j := by omega
            subst hij
            exact ⟨hcmp, Hsorted cf i hlocf (by omega) hjh⟩
        rcases ih cf (j + 1) target (by omega) hlocf (by omega) (by omega)
          Hrun' Hstart with ⟨rs, heq, hbounds, hpw, hcls, hcov⟩
        exact ⟨rs, heq, hbounds, hpw, hcls, fun i1 i2 h1 h2 h3 h4 h5 =>
          hcov i1 i2 h1 h2 h3 h4 h5⟩
      · -- strictly greater: a new run starts at j
        rw [if_pos (by simp [hcmp])]
        have Hltj : ∀ i, cf ≤ i → i < j →
            lt (permutationAt p i) (permutationAt p j) = true := by
          intro i h1 h2
          rcases Hrun i h1 h2 with ⟨ha, hb⟩
          exact Hlt_of_le_of_lt (permutationAt p i) (permutationAt p cf)
            (permutationAt p j) ha hcmp
        have Hstart' : ∀ i, lo ≤ i → i < j →
            lt (permutationAt p i) (permutationAt p j) = true := by
          intro i h1 h2
          rcases Nat.lt_or_ge i cf with h | h
          · exact Hlt_of_lt_of_le (permutationAt p i) (permutationAt p cf)
              (permutationAt p j) (Hstart i h1 h) (Hasym _ _ hcmp)
          · exact Hltj i h h2
        have Hrun'' : ∀ i, j ≤ i → i < j + 1 →
            lt (permutationAt p j) (permutationAt p i) = false ∧
            lt (permutationAt p i) (permutationAt p j) = false := by
          intro i h1 h2
          have hij : i = j := by omega
          subst hij
          exact ⟨Hirr _, Hirr _⟩
        rcases ih j (j + 1)
          (if j - cf > 1 then target ++ [⟨cf, j⟩] else target)
          (by omega) (by omega) (by omega) (by omega)
          Hrun'' Hstart' with ⟨rs', heq, hbounds, hpw, hcls, hcov⟩
        have hclass_push : ∀ i1 i2, cf ≤ i1 → i1 ≤ i2 → i2 < j →
            lt (permutationAt p i1) (permutationAt p i2) = false ∧
            lt (permutationAt p i2) (permutationAt p i1) = false := by
          intro i1 i2 h1 h2 h3
          rcases Hrun i1 h1 (by omega) with ⟨ha1, hb1⟩
          rcases Hrun i2 (by omega) h3 with ⟨ha2, hb2⟩
          constructor
          · rcases h12 : lt (permutationAt p i1) (permutationAt p i2) with _ | _
            · rfl
            · exfalso
              have := Hlt_of_le_of_lt (permutationAt p cf) (permutationAt p i1)
                (permutationAt p i2) hb1 h12
              rw [this] at ha2; cases ha2
          · rcases h21 : lt (permutationAt p i2) (permutationAt p i1) with _ | _
            · rfl
            · exfalso
              have := Hlt_of_le_of_lt (permutationAt p cf) (permutationAt p i2)
                (permutationAt p i1) hb2 h21
              rw [this] at ha1; cases ha1
        by_cases hlong : j - cf > 1
        · rw [if_pos hlong] at heq
          refine ⟨⟨cf, j⟩ :: rs', ?_, ?_, ?_, ?_, ?_⟩
          · rw [if_pos hlong, heq]
            simp
          · intro q hq
            rcases List.mem_cons.1 hq with rfl | hq'
            · refine ⟨le_refl _, ?_, ?_⟩
              · show cf < j
                omega
              · show j ≤ hi
                omega
            · rcases hbounds q hq' with ⟨h1, h2, h3⟩
              exact ⟨by omega, h2, h3⟩
          · refine List.pairwise_cons.2 ⟨?_, hpw⟩
            intro q hq
            rcases hbounds q hq with ⟨h1, _, _⟩
            exact h1
          · intro q hq
            rcases List.mem_cons.1 hq with rfl | hq'
            · exact hclass_push
            · exact hcls q hq'
          · intro i1 i2 h1 h2 h3 h4 h5
            rcases Nat.lt_or_ge i1 j with hi1 | hi1
            · rcases Nat.lt_or_ge i2 j with hi2 | hi2
              · exact ⟨⟨cf, j⟩, List.mem_cons_self _ _, h1, hi2⟩
              · exfalso
                have hlt1j : lt (permutationAt p i1) (permutationAt p j) = true :=
                  Hltj i1 h1 hi1
                have hsor : lt (permutationAt p i2) (permutationAt p j) = false :=
                  Hsorted j i2 (by omega) hi2 h3
                have := Hlt_of_lt_of_le (permutationAt p i1) (permutationAt p j)
                  (permutationAt p i2) hlt1j hsor
                rw [this] at h4; cases h4
            · rcases hcov i1 i2 hi1 h2 h3 h4 h5 with ⟨q, hq, hql, hqh⟩
              exact ⟨q, List.mem_cons_of_mem _ hq, hql, hqh⟩
        · rw [if_neg hlong] at heq
          refine ⟨rs', ?_, ?_, hpw, hcls, ?_⟩
          · rw [if_neg hlong, heq]
          · intro q hq
            rcases hbounds q hq with ⟨h1, h2, h3⟩
            exact ⟨by omega, h2, h3⟩
          · intro i1 i2 h1 h2 h3 h4 h5
            rcases Nat.lt_or_ge i1 j with hi1 | hi1
            · rcases Nat.lt_or_ge i2 j with hi2 | hi2
              · omega
              · exfalso
                have hlt1j : lt (permutationAt p i1) (permutationAt p j) = true :=
                  Hltj i1 h1 hi1
                have hsor : lt (permutationAt p i2) (permutationAt p j) = false :=
                  Hsorted j i2 (by omega) hi2 h3
                have := Hlt_of_lt_of_le (permutationAt p i1) (permutationAt p j)
                  (permutationAt p i2) hlt1j hsor
                rw [this] at h4; cases h4
            · exact hcov i1 i2 hi1 h2 h3 h4 h5
    · have hj : j = hi := by omega
      subst hj
      exact collect_spec_terminal Hlt_of_le_of_lt cf target (by omega) Hrun

/-! ### Specification of SortNonNullRange -/

theorem SortNonNullRange_spec {descending : Bool} {data : Nat → α}
    {u s v p : List Nat} {r : Range} (target : List Range) (isLast : Bool)
    (hp : p = u ++ s ++ v) (hu : u.length = r.lo) (hs : s.length = r.hi - r.lo)
    (hlh : r.lo ≤ r.hi) (hinc : s.Pairwise (· < ·)) :
    ∃ s' rs, SortNonNullRange descending data r target p isLast =
        (u ++ s' ++ v, target ++ rs) ∧
      s'.length = r.hi - r.lo ∧
      s'.Perm s ∧
      s'.Pairwise (fun x y => lessThanComparator descending data x y = true ∨
        (lessThanComparator descending data x y = false ∧
         lessThanComparator descending data y x = false ∧ x < y)) ∧
      (isLast = true → rs = []) ∧
      (∀ q ∈ rs, r.lo ≤ q.lo ∧ q.lo < q.hi ∧ q.hi ≤ r.hi) ∧
      rs.Pairwise (fun a b => a.hi ≤ b.lo) ∧
      (∀ q ∈ rs, ∀ i1 i2, q.lo ≤ i1 → i1 ≤ i2 → i2 < q.hi →
        lessThanComparator descending data (permutationAt (u ++ s' ++ v) i1)
          (permutationAt (u ++ s' ++ v) i2) = false ∧
        lessThanComparator descending data (permutationAt (u ++ s' ++ v) i2)
          (permutationAt (u ++ s' ++ v) i1) = false) ∧
      (isLast = false → ∀ i1 i2, r.lo ≤ i1 → i1 < i2 → i2 < r.hi →
        lessThanComparator descending data (permutationAt (u ++ s' ++ v) i1)
          (permutationAt (u ++ s' ++ v) i2) = false →
        lessThanComparator descending data (permutationAt (u ++ s' ++ v) i2)
          (permutationAt (u ++ s' ++ v) i1) = false →
        ∃ q ∈ rs, q.lo ≤ i1 ∧ i2 < q.hi) := by
  have Hasym : ∀ a b, lessThanComparator descending data a b = true →
      lessThanComparator descending data b a = false := fun a b h => ltc_asymm h
  have Hle_trans : ∀ a b c : Nat, lessThanComparator descending data b a = false →
      lessThanComparator descending data c b = false →
      lessThanComparator descending data c a = false :=
    fun a b c h1 h2 => ltc_le_trans h1 h2
  have Hlt_of_le_of_lt : ∀ a b c : Nat,
      lessThanComparator descending data b a = false →
      lessThanComparator descending data b c = true →
      lessThanComparator descending data a c = true :=
    fun a b c h1 h2 => ltc_lt_of_le_of_lt h1 h2
  have Hlt_of_lt_of_le : ∀ a b c : Nat,
      lessThanComparator descending data a b = true →
      lessThanComparator descending data c b = false →
      lessThanComparator descending data a c = true :=
    fun a b c h1 h2 => ltc_lt_of_lt_of_le h1 h2
  have hp1 : permutationSort p r.lo r.hi (lessThanComparator descending data) =
      u ++ s.mergeSort (fun a b => !(lessThanComparator descending data b a)) ++ v := by
    unfold permutationSort
    subst hp
    rw [take_of_decomp s v hu, slice_of_decomp v hu hs, drop_hi_of_decomp v hu hs hlh]
  have hKey := mergeSort_pairwise_stable Hasym Hle_trans hinc
  set s' : List Nat :=
    s.mergeSort (fun a b => !(lessThanComparator descending data b a)) with hsdef
  have hslen2 : s'.length = r.hi - r.lo := by
    rw [hsdef, List.length_mergeSort]; exact hs
  have hperm : s'.Perm s := List.mergeSort_perm s _
  have hpa : ∀ i, r.lo ≤ i → i < r.hi →
      permutationAt (u ++ s' ++ v) i = s'.getD (i - r.lo) 0 :=
    fun i h1 h2 => permutationAt_middle v hu hslen2 h1 h2
  have hsorted_pos : ∀ i1 i2, r.lo ≤ i1 → i1 ≤ i2 → i2 < r.hi →
      lessThanComparator descending data (permutationAt (u ++ s' ++ v) i2)
        (permutationAt (u ++ s' ++ v) i1) = false := by
    intro i1 i2 h1 h2 h3
    rw [hpa i1 h1 (by omega), hpa i2 (by omega) h3]
    have hm1 : i1 - r.lo < s'.length := by omega
    have hm2 : i2 - r.lo < s'.length := by omega
    rw [List.getD_eq_getElem _ _ hm1, List.getD_eq_getElem _ _ hm2]
    rcases Nat.eq_or_lt_of_le h2 with he | hlt2
    · subst he
      exact ltc_irrefl _ _ _
    · have := (List.pairwise_iff_getElem.1 hKey) (i1 - r.lo) (i2 - r.lo) hm1 hm2
        (by omega)
      rcases this with h | ⟨h, h', _⟩
      · exact Hasym _ _ h
      · exact h'
  rcases hLast : isLast with _ | _
  · -- not the last column: the equal runs are collected
    simp only [SortNonNullRange]
    rw [hp1]
    simp only [Bool.false_eq_true, if_false]
    by_cases hdeg : r.hi ≤ r.lo + 1
    · -- degenerate range of at most one row: the scan finds nothing
      have hcol : collectEqualRanges (lessThanComparator descending data)
          (u ++ s' ++ v) r.lo (r.lo + 1) r.hi target = target := by
        rw [collectEqualRanges]
        rw [dif_neg (by omega : ¬ r.lo + 1 < r.hi)]
        rw [if_neg (by omega : ¬ r.hi - r.lo > 1)]
      refine ⟨s', [], ?_, hslen2, hperm, hKey, fun _ => rfl, by simp, by simp,
        by simp, ?_⟩
      · rw [hcol]
        simp
      · intro _ i1 i2 h1 h2 h3 _ _
        omega
    · rcases collectEqualRanges_spec Hasym Hlt_of_le_of_lt Hlt_of_lt_of_le
        hsorted_pos (r.hi - (r.lo + 1)) r.lo (r.lo + 1) target (le_refl _)
        (le_refl _) (by omega) (by omega)
        (by
          intro i h1 h2
          have : i = r.lo := by omega
          subst this
          exact ⟨ltc_irrefl _ _ _, ltc_irrefl _ _ _⟩)
        (by intro i h1 h2; omega)
        with ⟨rs, heq, hbounds, hpw, hcls, hcov⟩
      refine ⟨s', rs, ?_, hslen2, hperm, hKey, by simp, hbounds, hpw, hcls, ?_⟩
      · rw [heq]
      · intro _ i1 i2 h1 h2 h3 h4 h5
        exact hcov i1 i2 h1 h2 h3 h4 h5
  · -- last column: no ranges are pushed
    simp only [SortNonNullRange]
    rw [hp1]
    simp only [if_true]
    exact ⟨s', [], by simp, hslen2, hperm, hKey, fun _ => rfl, by simp, by simp,
      by simp, by simp⟩

/-! ### Helpers for the nullable branch of SortRange -/

/-- Per-key strict refinement order realized by a stable sort step on one key:
strictly below under the key's cell order, or tied and in original row order. -/
def kS (k : SortKeyCol α) (x y : Nat) : Prop :=
  cellCmp k x y = Ordering.lt ∨ (cellCmp k x y = Ordering.eq ∧ x < y)

theorem nullPartitionPredicate_false (nl : Nat → Bool) (i : Nat) :
    nullPartitionPredicate false nl i = nl i := by
  simp [nullPartitionPredicate]

theorem nullPartitionPredicate_true (nl : Nat → Bool) (i : Nat) :
    nullPartitionPredicate true nl i = !(nl i) := by
  simp [nullPartitionPredicate]

theorem cellOf_null {k : SortKeyCol α} {nl : Nat → Bool} (hk : k.isNull = some nl)
    {x : Nat} (hx : nl x = true) : cellOf k x = none := by
  unfold cellOf
  rw [hk]
  simp [hx]

theorem cellOf_notnull {k : SortKeyCol α} {nl : Nat → Bool} (hk : k.isNull = some nl)
    {x : Nat} (hx : nl x = false) : cellOf k x = some (k.data x) := by
  unfold cellOf
  rw [hk]
  simp [hx]

theorem cellOf_none {k : SortKeyCol α} (hk : k.isNull = none) (x : Nat) :
    cellOf k x = some (k.data x) := by
  unfold cellOf
  rw [hk]

theorem permutationPartition_decomp {u s v p : List Nat} {r : Range}
    (pred : Nat → Bool) (hp : p = u ++ s ++ v) (hu : u.length = r.lo)
    (hs : s.length = r.hi - r.lo) (hlh : r.lo ≤ r.hi) :
    permutationPartition p r.lo r.hi pred =
      (u ++ (s.filter pred ++ s.filter (fun i => !(pred i))) ++ v,
       (s.filter pred).length) := by
  unfold permutationPartition
  subst hp
  rw [take_of_decomp s v hu, slice_of_decomp v hu hs, drop_hi_of_decomp v hu hs hlh]
  simp [List.append_assoc]

theorem mem_of_getD {l : List Nat} {m : Nat} (h : m < l.length) :
    l.getD m 0 ∈ l := by
  rw [List.getD_eq_getElem _ _ h]
  exact List.getElem_mem h

theorem pairwise_of_length_le_one {l : List Nat} {R : Nat → Nat → Prop}
    (h : l.length ≤ 1) : l.Pairwise R := by
  match l with
  | [] => exact List.Pairwise.nil
  | [x] => exact List.pairwise_singleton R x
  | x :: y :: t => simp at h

/-! ### Specification of SortRange -/

theorem SortRange_spec {k : SortKeyCol α} {u s v p : List Nat} {r : Range}
    (target : List Range) (isLast : Bool)
    (hp : p = u ++ s ++ v) (hu : u.length = r.lo) (hs : s.length = r.hi - r.lo)
    (hlh : r.lo ≤ r.hi) (hinc : s.Pairwise (· < ·)) :
    ∃ s2 rs, SortRange k.descending k.data k.isNull r target p isLast =
        (u ++ s2 ++ v, target ++ rs) ∧
      s2.length = r.hi - r.lo ∧
      s2.Perm s ∧
      s2.Pairwise (kS k) ∧
      (isLast = true → rs = []) ∧
      (∀ q ∈ rs, r.lo ≤ q.lo ∧ q.lo ≤ q.hi ∧ q.hi ≤ r.hi) ∧
      rs.Pairwise (fun a b => a.hi ≤ b.lo) ∧
      (∀ q ∈ rs, ∀ i1 i2, q.lo ≤ i1 → i1 ≤ i2 → i2 < q.hi →
        cellCmp k (permutationAt (u ++ s2 ++ v) i1)
          (permutationAt (u ++ s2 ++ v) i2) = Ordering.eq) ∧
      (isLast = false → ∀ i1 i2, r.lo ≤ i1 → i1 < i2 → i2 < r.hi →
        cellCmp k (permutationAt (u ++ s2 ++ v) i1)
          (permutationAt (u ++ s2 ++ v) i2) = Ordering.eq →
        ∃ q ∈ rs, q.lo ≤ i1 ∧ i2 < q.hi) := by
  rcases hnl : k.isNull with _ | nl
  · -- non-nullable column: SortRange is exactly SortNonNullRange
    have hcell : ∀ x : Nat, cellOf k x = some (k.data x) := cellOf_none hnl
    rcases @SortNonNullRange_spec _ _ k.descending k.data _ _ _ _ _
      target isLast hp hu hs hlh hinc with
      ⟨s', rs, heq, hlen, hperm, hpw, hlastnil, hbounds, hrpw, hcls, hcov⟩
    have hties_to_eq : ∀ x y : Nat,
        lessThanComparator k.descending k.data x y = false →
        lessThanComparator k.descending k.data y x = false →
        cellCmp k x y = Ordering.eq := by
      intro x y h1 h2
      exact (cellCmp_eq_iff_data (hcell x) (hcell y)).2 (ltc_tie_iff.1 ⟨h1, h2⟩)
    have heq_to_ties : ∀ x y : Nat, cellCmp k x y = Ordering.eq →
        lessThanComparator k.descending k.data x y = false ∧
        lessThanComparator k.descending k.data y x = false := by
      intro x y h
      exact ltc_tie_iff.2 ((cellCmp_eq_iff_data (hcell x) (hcell y)).1 h)
    refine ⟨s', rs, heq, hlen, hperm, ?_, hlastnil, ?_, hrpw, ?_, ?_⟩
    · refine hpw.imp ?_
      intro x y hxy
      rcases hxy with h | ⟨h1, h2, h3⟩
      · exact Or.inl ((cellCmp_lt_iff_ltc (hcell x) (hcell y)).2 h)
      · exact Or.inr ⟨hties_to_eq x y h1 h2, h3⟩
    · intro q hq
      rcases hbounds q hq with ⟨h1, h2, h3⟩
      exact ⟨h1, by omega, h3⟩
    · intro q hq i1 i2 h1 h2 h3
      rcases hcls q hq i1 i2 h1 h2 h3 with ⟨ha, hb⟩
      exact hties_to_eq _ _ ha hb
    · intro hl i1 i2 h1 h2 h3 hcell_eq
      rcases heq_to_ties _ _ hcell_eq with ⟨ha, hb⟩
      exact hcov hl i1 i2 h1 h2 h3 ha hb
  · rcases hd : k.descending with _ | _
    · -- ascending, nullable: NULLs are partitioned to the front
      have hmem1 : ∀ x ∈ s.filter (nullPartitionPredicate false nl), nl x = true := by
        intro x hx
        have := (List.mem_filter.1 hx).2
        rwa [nullPartitionPredicate_false] at this
      have hmem2 : ∀ x ∈ s.filter (fun i => !(nullPartitionPredicate false nl i)),
          nl x = false := by
        intro x hx
        have := (List.mem_filter.1 hx).2
        simpa [nullPartitionPredicate_false] using this
      have hlen12 : (s.filter (nullPartitionPredicate false nl)).length +
          (s.filter (fun i => !(nullPartitionPredicate false nl i))).length
          = s.length := by
        have := (List.filter_append_perm (nullPartitionPredicate false nl) s).length_eq
        simpa using this
      have hinc1 : (s.filter (nullPartitionPredicate false nl)).Pairwise (· < ·) :=
        hinc.filter _
      have hinc2 : (s.filter (fun i => !(nullPartitionPredicate false nl i))).Pairwise
          (· < ·) := hinc.filter _
      set f1 := s.filter (nullPartitionPredicate false nl) with hf1
      set f2 := s.filter (fun i => !(nullPartitionPredicate false nl i)) with hf2
      have hc_le : f1.length ≤ s.length := List.length_filter_le _ _
      have hcode : SortRange false k.data (some nl) r target p isLast =
          (if r.hi - f1.length > 1 then
            SortNonNullRange false k.data ⟨r.lo + f1.length, r.hi⟩
              (target ++ (if f1.length > 1 ∧ isLast = false
                then [⟨r.lo, r.lo + f1.length⟩] else []))
              (u ++ (f1 ++ f2) ++ v) isLast
          else (u ++ (f1 ++ f2) ++ v,
            target ++ (if f1.length > 1 ∧ isLast = false
              then [⟨r.lo, r.lo + f1.length⟩] else []))) := by
        simp only [SortRange]
        rw [permutationPartition_decomp (nullPartitionPredicate false nl) hp hu hs hlh]
        rcases isLast with _ | _ <;> by_cases hc : f1.length > 1 <;>
          simp [hc, ← hf1, ← hf2]
      rw [hcode]
      -- facts shared by both second-part branches
      have hchle : f1.length ≤ r.hi - r.lo := by omega
      have hf2len : f2.length = r.hi - r.lo - f1.length := by omega
      have hnull1 : ∀ x ∈ f1, cellOf k x = none :=
        fun x hx => cellOf_null hnl (hmem1 x hx)
      have hsome2 : ∀ x ∈ f2, cellOf k x = some (k.data x) :=
        fun x hx => cellOf_notnull hnl (hmem2 x hx)
      have hpwf1 : f1.Pairwise (kS k) := by
        refine hinc1.imp_of_mem ?_
        intro x y hx hy hlt
        exact Or.inr ⟨cellCmp_null_null (hnull1 x hx) (hnull1 y hy), hlt⟩
      have hlt_iff : ∀ x y : Nat, cellOf k x = some (k.data x) →
          cellOf k y = some (k.data y) →
          (cellCmp k x y = Ordering.lt ↔
            lessThanComparator false k.data x y = true) := by
        intro x y hx hy
        have h0 := cellCmp_lt_iff_ltc hx hy
        rw [hd] at h0
        exact h0
      have hties_to_eq : ∀ x y : Nat, cellOf k x = some (k.data x) →
          cellOf k y = some (k.data y) →
          lessThanComparator false k.data x y = false →
          lessThanComparator false k.data y x = false →
          cellCmp k x y = Ordering.eq := by
        intro x y hx hy h1 h2
        exact (cellCmp_eq_iff_data hx hy).2 (ltc_tie_iff.1 ⟨h1, h2⟩)
      have heq_to_ties : ∀ x y : Nat, cellOf k x = some (k.data x) →
          cellOf k y = some (k.data y) → cellCmp k x y = Ordering.eq →
          lessThanComparator false k.data x y = false ∧
          lessThanComparator false k.data y x = false := by
        intro x y hx hy h
        exact ltc_tie_iff.2 ((cellCmp_eq_iff_data hx hy).1 h)
      have hpos : ∀ (g2 : List Nat), g2.length = r.hi - r.lo - f1.length →
          ((∀ i, r.lo ≤ i → i < r.lo + f1.length →
             permutationAt (u ++ (f1 ++ g2) ++ v) i ∈ f1) ∧
           (∀ i, r.lo + f1.length ≤ i → i < r.hi →
             permutationAt (u ++ (f1 ++ g2) ++ v) i ∈ g2)) := by
        intro g2 hg2len
        have hmidlen : (f1 ++ g2).length = r.hi - r.lo := by
          rw [List.length_append]; omega
        have hpaP : ∀ i, r.lo ≤ i → i < r.hi →
            permutationAt (u ++ (f1 ++ g2) ++ v) i = (f1 ++ g2).getD (i - r.lo) 0 :=
          fun i h1 h2 => permutationAt_middle v hu hmidlen h1 h2
        constructor
        · intro i h1 h2
          rw [hpaP i h1 (by omega), List.getD_append _ _ _ _ (by omega)]
          exact mem_of_getD (by omega)
        · intro i h1 h2
          rw [hpaP i (by omega) h2, List.getD_append_right _ _ _ _ (by omega)]
          exact mem_of_getD (by omega)
      by_cases hh : r.hi - f1.length > 1
      · -- the non-NULL tail subrange is sorted by SortNonNullRange
        rw [if_pos hh]
        rcases @SortNonNullRange_spec _ _ false k.data
          (u ++ f1) f2 v (u ++ (f1 ++ f2) ++ v)
          ⟨r.lo + f1.length, r.hi⟩
          (target ++ (if f1.length > 1 ∧ isLast = false
            then [⟨r.lo, r.lo + f1.length⟩] else [])) isLast
          (by simp [List.append_assoc]) (by simp [hu]) (by simpa using by omega)
          (by simpa using by omega) hinc2 with
          ⟨s2', rs2, heq2, hlen2, hperm2, hpw2, hlast2, hbounds2, hrpw2, hcls2, hcov2⟩
        have hlen2' : s2'.length = r.hi - r.lo - f1.length := by
          rw [hlen2]; simp; omega
        have hLeq : (u ++ f1) ++ s2' ++ v = u ++ (f1 ++ s2') ++ v := by
          simp [List.append_assoc]
        rw [hLeq] at heq2 hcls2 hcov2
        have hsome2' : ∀ x ∈ s2', cellOf k x = some (k.data x) :=
          fun x hx => hsome2 x (hperm2.mem_iff.1 hx)
        rcases hpos s2' hlen2' with ⟨hposA, hposB⟩
        refine ⟨f1 ++ s2',
          (if f1.length > 1 ∧ isLast = false
            then [⟨r.lo, r.lo + f1.length⟩] else []) ++ rs2,
          ?_, ?_, ?_, ?_, ?_, ?_, ?_, ?_, ?_⟩
        · rw [heq2]
          simp [List.append_assoc]
        · rw [List.length_append]; omega
        · exact (hperm2.append_left f1).trans
            (by rw [hf1, hf2]; exact List.filter_append_perm _ s)
        · refine List.pairwise_append.2 ⟨hpwf1, ?_, ?_⟩
          · refine hpw2.imp_of_mem ?_
            intro x y hx hy hxy
            rcases hxy with h | ⟨h1, h2, h3⟩
            · exact Or.inl ((hlt_iff x y (hsome2' x hx) (hsome2' y hy)).2 h)
            · exact Or.inr ⟨hties_to_eq x y (hsome2' x hx) (hsome2' y hy) h1 h2, h3⟩
          · intro x hx y hy
            exact Or.inl (cellCmp_null_some_asc hd (hnull1 x hx) (hsome2' y hy))
        · intro hl
          rw [hlast2 hl]
          simp [hl]
        · intro q hq
          rcases List.mem_append.1 hq with h | h
          · rcases List.mem_singleton.1 (by
              by_cases hP : f1.length > 1 ∧ isLast = false
              · rwa [if_pos hP] at h
              · rw [if_neg hP] at h; cases h) with rfl
            refine ⟨le_refl _, ?_, ?_⟩
            · show r.lo ≤ r.lo + f1.length
              omega
            · show r.lo + f1.length ≤ r.hi
              omega
          · rcases hbounds2 q h with ⟨h1, h2, h3⟩
            have h1' : r.lo + f1.length ≤ q.lo := h1
            exact ⟨by omega, by omega, h3⟩
        · refine List.pairwise_append.2 ⟨?_, hrpw2, ?_⟩
          · by_cases hP : f1.length > 1 ∧ isLast = false
            · rw [if_pos hP]; exact List.pairwise_singleton _ _
            · rw [if_neg hP]; exact List.Pairwise.nil
          · intro q hq q' hq'
            rcases List.mem_singleton.1 (by
              by_cases hP : f1.length > 1 ∧ isLast = false
              · rwa [if_pos hP] at hq
              · rw [if_neg hP] at hq; cases hq) with rfl
            rcases hbounds2 q' hq' with ⟨h1, _, _⟩
            exact h1
        · intro q hq i1 i2 h1 h2 h3
          rcases List.mem_append.1 hq with h | h
          · rcases List.mem_singleton.1 (by
              by_cases hP : f1.length > 1 ∧ isLast = false
              · rwa [if_pos hP] at h
              · rw [if_neg hP] at h; cases h) with rfl
            have h1' : r.lo ≤ i1 := h1
            have h3' : i2 < r.lo + f1.length := h3
            have hm1 : permutationAt (u ++ (f1 ++ s2') ++ v) i1 ∈ f1 :=
              hposA i1 h1' (by omega)
            have hm2 : permutationAt (u ++ (f1 ++ s2') ++ v) i2 ∈ f1 :=
              hposA i2 (by omega) (by omega)
            exact cellCmp_null_null (hnull1 _ hm1) (hnull1 _ hm2)
          · rcases hbounds2 q h with ⟨hb1, hb2, hb3⟩
            have hb1' : r.lo + f1.length ≤ q.lo := hb1
            have hb3' : q.hi ≤ r.hi := hb3
            rcases hcls2 q h i1 i2 h1 h2 h3 with ⟨ht1, ht2⟩
            have hm1 : permutationAt (u ++ (f1 ++ s2') ++ v) i1 ∈ s2' :=
              hposB i1 (by omega) (by omega)
            have hm2 : permutationAt (u ++ (f1 ++ s2') ++ v) i2 ∈ s2' :=
              hposB i2 (by omega) (by omega)
            exact hties_to_eq _ _ (hsome2' _ hm1) (hsome2' _ hm2) ht1 ht2
        · intro hl i1 i2 h1 h2 h3 hceq
          rcases Nat.lt_or_ge i2 (r.lo + f1.length) with hs2 | hs2
          · -- both rows NULL: the whole NULL range was pushed
            refine ⟨⟨r.lo, r.lo + f1.length⟩, ?_, h1, hs2⟩
            apply List.mem_append.2
            left
            rw [if_pos ⟨by omega, hl⟩]
            exact List.mem_singleton.2 rfl
          · rcases Nat.lt_or_ge i1 (r.lo + f1.length) with hs1 | hs1
            · -- one NULL row against a non-NULL row: never equal
              exfalso
              have hm1 : permutationAt (u ++ (f1 ++ s2') ++ v) i1 ∈ f1 :=
                hposA i1 h1 hs1
              have hm2 : permutationAt (u ++ (f1 ++ s2') ++ v) i2 ∈ s2' :=
                hposB i2 hs2 h3
              exact cellCmp_mixed_ne_eq (hnull1 _ hm1) (hsome2' _ hm2) hceq
            · -- both rows non-NULL: covered by the scan of the sorted tail
              have hm1 : permutationAt (u ++ (f1 ++ s2') ++ v) i1 ∈ s2' :=
                hposB i1 hs1 (by omega)
              have hm2 : permutationAt (u ++ (f1 ++ s2') ++ v) i2 ∈ s2' :=
                hposB i2 hs2 h3
              rcases heq_to_ties _ _ (hsome2' _ hm1) (hsome2' _ hm2) hceq with ⟨ht1, ht2⟩
              rcases hcov2 hl i1 i2 hs1 h2 h3 ht1 ht2 with ⟨q, hq, hql, hqh⟩
              exact ⟨q, List.mem_append.2 (Or.inr hq), hql, hqh⟩
      · -- degenerate tail of at most one row: nothing to sort
        rw [if_neg hh]
        have hf2small : f2.length ≤ 1 := by omega
        rcases hpos f2 hf2len with ⟨hposA, hposB⟩
        refine ⟨f1 ++ f2,
          (if f1.length > 1 ∧ isLast = false
            then [⟨r.lo, r.lo + f1.length⟩] else []), rfl, ?_, ?_, ?_, ?_, ?_, ?_, ?_, ?_⟩
        · rw [List.length_append]; omega
        · rw [hf1, hf2]; exact List.filter_append_perm _ s
        · refine List.pairwise_append.2 ⟨hpwf1, pairwise_of_length_le_one hf2small, ?_⟩
          intro x hx y hy
          exact Or.inl (cellCmp_null_some_asc hd (hnull1 x hx) (hsome2 y hy))
        · intro hl
          simp [hl]
        · intro q hq
          rcases List.mem_singleton.1 (by
            by_cases hP : f1.length > 1 ∧ isLast = false
            · rwa [if_pos hP] at hq
            · rw [if_neg hP] at hq; cases hq) with rfl
          refine ⟨le_refl _, ?_, ?_⟩
          · show r.lo ≤ r.lo + f1.length
            omega
          · show r.lo + f1.length ≤ r.hi
            omega
        · by_cases hP : f1.length > 1 ∧ isLast = false
          · rw [if_pos hP]; exact List.pairwise_singleton _ _
          · rw [if_neg hP]; exact List.Pairwise.nil
        · intro q hq i1 i2 h1 h2 h3
          rcases List.mem_singleton.1 (by
            by_cases hP : f1.length > 1 ∧ isLast = false
            · rwa [if_pos hP] at hq
            · rw [if_neg hP] at hq; cases hq) with rfl
          have h1' : r.lo ≤ i1 := h1
          have h3' : i2 < r.lo + f1.length := h3
          have hm1 : permutationAt (u ++ (f1 ++ f2) ++ v) i1 ∈ f1 :=
            hposA i1 h1' (by omega)
          have hm2 : permutationAt (u ++ (f1 ++ f2) ++ v) i2 ∈ f1 :=
            hposA i2 (by omega) (by omega)
          exact cellCmp_null_null (hnull1 _ hm1) (hnull1 _ hm2)
        · intro hl i1 i2 h1 h2 h3 hceq
          rcases Nat.lt_or_ge i2 (r.lo + f1.length) with hs2 | hs2
          · refine ⟨⟨r.lo, r.lo + f1.length⟩, ?_, h1, hs2⟩
            rw [if_pos ⟨by omega, hl⟩]
            exact List.mem_singleton.2 rfl
          · rcases Nat.lt_or_ge i1 (r.lo + f1.length) with hs1 | hs1
            · exfalso
              have hm1 : permutationAt (u ++ (f1 ++ f2) ++ v) i1 ∈ f1 :=
                hposA i1 h1 hs1
              have hm2 : permutationAt (u ++ (f1 ++ f2) ++ v) i2 ∈ f2 :=
                hposB i2 hs2 h3
              exact cellCmp_mixed_ne_eq (hnull1 _ hm1) (hsome2 _ hm2) hceq
            · omega
    · -- descending, nullable: non-NULLs are partitioned to the front
      have hmem1 : ∀ x ∈ s.filter (nullPartitionPredicate true nl), nl x = false := by
        intro x hx
        have := (List.mem_filter.1 hx).2
        simpa [nullPartitionPredicate_true] using this
      have hmem2 : ∀ x ∈ s.filter (fun i => !(nullPartitionPredicate true nl i)),
          nl x = true := by
        intro x hx
        have := (List.mem_filter.1 hx).2
        simpa [nullPartitionPredicate_true] using this
      have hlen12 : (s.filter (nullPartitionPredicate true nl)).length +
          (s.filter (fun i => !(nullPartitionPredicate true nl i))).length
          = s.length := by
        have := (List.filter_append_perm (nullPartitionPredicate true nl) s).length_eq
        simpa using this
      have hinc1 : (s.filter (nullPartitionPredicate true nl)).Pairwise (· < ·) :=
        hinc.filter _
      have hinc2 : (s.filter (fun i => !(nullPartitionPredicate true nl i))).Pairwise
          (· < ·) := hinc.filter _
      set f1 := s.filter (nullPartitionPredicate true nl) with hf1
      set f2 := s.filter (fun i => !(nullPartitionPredicate true nl i)) with hf2
      have hc_le : f1.length ≤ s.length := List.length_filter_le _ _
      have hcode : SortRange true k.data (some nl) r target p isLast =
          (if f1.length > 1 then
            ((SortNonNullRange true k.data ⟨r.lo, r.lo + f1.length⟩ target
                (u ++ (f1 ++ f2) ++ v) isLast).1,
             (SortNonNullRange true k.data ⟨r.lo, r.lo + f1.length⟩ target
                (u ++ (f1 ++ f2) ++ v) isLast).2 ++
               (if r.hi - f1.length > 1 ∧ isLast = false
                 then [⟨r.lo + f1.length, r.hi⟩] else []))
          else (u ++ (f1 ++ f2) ++ v,
            target ++ (if r.hi - f1.length > 1 ∧ isLast = false
              then [⟨r.lo + f1.length, r.hi⟩] else []))) := by
        simp only [SortRange]
        rw [permutationPartition_decomp (nullPartitionPredicate true nl) hp hu hs hlh]
        rcases isLast with _ | _ <;> by_cases hh : r.hi - f1.length > 1 <;>
          by_cases hc : f1.length > 1 <;> simp [hc, hh, ← hf1, ← hf2]
      rw [hcode]
      have hchle : f1.length ≤ r.hi - r.lo := by omega
      have hf2len : f2.length = r.hi - r.lo - f1.length := by omega
      have hsome1 : ∀ x ∈ f1, cellOf k x = some (k.data x) :=
        fun x hx => cellOf_notnull hnl (hmem1 x hx)
      have hnull2 : ∀ x ∈ f2, cellOf k x = none :=
        fun x hx => cellOf_null hnl (hmem2 x hx)
      have hpwf2 : f2.Pairwise (kS k) := by
        refine hinc2.imp_of_mem ?_
        intro x y hx hy hlt
        exact Or.inr ⟨cellCmp_null_null (hnull2 x hx) (hnull2 y hy), hlt⟩
      have hlt_iff : ∀ x y : Nat, cellOf k x = some (k.data x) →
          cellOf k y = some (k.data y) →
          (cellCmp k x y = Ordering.lt ↔
            lessThanComparator true k.data x y = true) := by
        intro x y hx hy
        have h0 := cellCmp_lt_iff_ltc hx hy
        rw [hd] at h0
        exact h0
      have hties_to_eq : ∀ x y : Nat, cellOf k x = some (k.data x) →
          cellOf k y = some (k.data y) →
          lessThanComparator true k.data x y = false →
          lessThanComparator true k.data y x = false →
          cellCmp k x y = Ordering.eq := by
        intro x y hx hy h1 h2
        exact (cellCmp_eq_iff_data hx hy).2 (ltc_tie_iff.1 ⟨h1, h2⟩)
      have heq_to_ties : ∀ x y : Nat, cellOf k x = some (k.data x) →
          cellOf k y = some (k.data y) → cellCmp k x y = Ordering.eq →
          lessThanComparator true k.data x y = false ∧
          lessThanComparator true k.data y x = false := by
        intro x y hx hy h
        exact ltc_tie_iff.2 ((cellCmp_eq_iff_data hx hy).1 h)
      have hpos : ∀ (g1 : List Nat), g1.length = f1.length →
          ((∀ i, r.lo ≤ i → i < r.lo + f1.length →
             permutationAt (u ++ (g1 ++ f2) ++ v) i ∈ g1) ∧
           (∀ i, r.lo + f1.length ≤ i → i < r.hi →
             permutationAt (u ++ (g1 ++ f2) ++ v) i ∈ f2)) := by
        intro g1 hg1len
        have hmidlen : (g1 ++ f2).length = r.hi - r.lo := by
          rw [List.length_append]; omega
        have hpaP : ∀ i, r.lo ≤ i → i < r.hi →
            permutationAt (u ++ (g1 ++ f2) ++ v) i = (g1 ++ f2).getD (i - r.lo) 0 :=
          fun i h1 h2 => permutationAt_middle v hu hmidlen h1 h2
        constructor
        · intro i h1 h2
          rw [hpaP i h1 (by omega), List.getD_append _ _ _ _ (by omega)]
          exact mem_of_getD (by omega)
        · intro i h1 h2
          rw [hpaP i (by omega) h2, List.getD_append_right _ _ _ _ (by omega)]
          exact mem_of_getD (by omega)
      by_cases hc : f1.length > 1
      · -- the non-NULL head subrange is sorted by SortNonNullRange
        rw [if_pos hc]
        rcases @SortNonNullRange_spec _ _ true k.data
          u f1 (f2 ++ v) (u ++ (f1 ++ f2) ++ v)
          ⟨r.lo, r.lo + f1.length⟩ target isLast
          (by simp [List.append_assoc]) hu (by simpa using by omega)
          (by simpa using by omega) hinc1 with
          ⟨s1', rs1, heq1, hlen1, hperm1, hpw1, hlast1, hbounds1, hrpw1, hcls1, hcov1⟩
        have hlen1' : s1'.length = f1.length := by
          rw [hlen1]; simp
        have hLeq : u ++ s1' ++ (f2 ++ v) = u ++ (s1' ++ f2) ++ v := by
          simp [List.append_assoc]
        rw [hLeq] at heq1 hcls1 hcov1
        have hsome1' : ∀ x ∈ s1', cellOf k x = some (k.data x) :=
          fun x hx => hsome1 x (hperm1.mem_iff.1 hx)
        rcases hpos s1' hlen1' with ⟨hposA, hposB⟩
        refine ⟨s1' ++ f2,
          rs1 ++ (if r.hi - f1.length > 1 ∧ isLast = false
            then [⟨r.lo + f1.length, r.hi⟩] else []),
          ?_, ?_, ?_, ?_, ?_, ?_, ?_, ?_, ?_⟩
        · rw [heq1]
          simp [List.append_assoc]
        · rw [List.length_append]; omega
        · exact (hperm1.append_right f2).trans
            (by rw [hf1, hf2]; exact List.filter_append_perm _ s)
        · refine List.pairwise_append.2 ⟨?_, hpwf2, ?_⟩
          · refine hpw1.imp_of_mem ?_
            intro x y hx hy hxy
            rcases hxy with h | ⟨h1, h2, h3⟩
            · exact Or.inl ((hlt_iff x y (hsome1' x hx) (hsome1' y hy)).2 h)
            · exact Or.inr ⟨hties_to_eq x y (hsome1' x hx) (hsome1' y hy) h1 h2, h3⟩
          · intro x hx y hy
            exact Or.inl (cellCmp_some_null_desc hd (hsome1' x hx) (hnull2 y hy))
        · intro hl
          rw [hlast1 hl]
          simp [hl]
        · intro q hq
          rcases List.mem_append.1 hq with h | h
          · rcases hbounds1 q h with ⟨h1, h2, h3⟩
            have h3' : q.hi ≤ r.lo + f1.length := h3
            exact ⟨h1, by omega, by omega⟩
          · rcases List.mem_singleton.1 (by
              by_cases hP : r.hi - f1.length > 1 ∧ isLast = false
              · rwa [if_pos hP] at h
              · rw [if_neg hP] at h; cases h) with rfl
            refine ⟨?_, ?_, le_refl _⟩
            · show r.lo ≤ r.lo + f1.length
              omega
            · show r.lo + f1.length ≤ r.hi
              omega
        · refine List.pairwise_append.2 ⟨hrpw1, ?_, ?_⟩
          · by_cases hP : r.hi - f1.length > 1 ∧ isLast = false
            · rw [if_pos hP]; exact List.pairwise_singleton _ _
            · rw [if_neg hP]; exact List.Pairwise.nil
          · intro q hq q' hq'
            rcases List.mem_singleton.1 (by
              by_cases hP : r.hi - f1.length > 1 ∧ isLast = false
              · rwa [if_pos hP] at hq'
              · rw [if_neg hP] at hq'; cases hq') with rfl
            rcases hbounds1 q hq with ⟨h1, h2, h3⟩
            exact h3
        · intro q hq i1 i2 h1 h2 h3
          rcases List.mem_append.1 hq with h | h
          · rcases hbounds1 q h with ⟨hb1, hb2, hb3⟩
            have hb1' : r.lo ≤ q.lo := hb1
            have hb3' : q.hi ≤ r.lo + f1.length := hb3
            rcases hcls1 q h i1 i2 h1 h2 h3 with ⟨ht1, ht2⟩
            have hm1 : permutationAt (u ++ (s1' ++ f2) ++ v) i1 ∈ s1' :=
              hposA i1 (by omega) (by omega)
            have hm2 : permutationAt (u ++ (s1' ++ f2) ++ v) i2 ∈ s1' :=
              hposA i2 (by omega) (by omega)
            exact hties_to_eq _ _ (hsome1' _ hm1) (hsome1' _ hm2) ht1 ht2
          · rcases List.mem_singleton.1 (by
              by_cases hP : r.hi - f1.length > 1 ∧ isLast = false
              · rwa [if_pos hP] at h
              · rw [if_neg hP] at h; cases h) with rfl
            have h1' : r.lo + f1.length ≤ i1 := h1
            have h3' : i2 < r.hi := h3
            have hm1 : permutationAt (u ++ (s1' ++ f2) ++ v) i1 ∈ f2 :=
              hposB i1 h1' (by omega)
            have hm2 : permutationAt (u ++ (s1' ++ f2) ++ v) i2 ∈ f2 :=
              hposB i2 (by omega) h3'
            exact cellCmp_null_null (hnull2 _ hm1) (hnull2 _ hm2)
        · intro hl i1 i2 h1 h2 h3 hceq
          rcases Nat.lt_or_ge i2 (r.lo + f1.length) with hs2 | hs2
          · -- both rows non-NULL: covered by the scan of the sorted head
            have hm1 : permutationAt (u ++ (s1' ++ f2) ++ v) i1 ∈ s1' :=
              hposA i1 h1 (by omega)
            have hm2 : permutationAt (u ++ (s1' ++ f2) ++ v) i2 ∈ s1' :=
              hposA i2 (by omega) hs2
            rcases heq_to_ties _ _ (hsome1' _ hm1) (hsome1' _ hm2) hceq with ⟨ht1, ht2⟩
            rcases hcov1 hl i1 i2 h1 h2 hs2 ht1 ht2 with ⟨q, hq, hql, hqh⟩
            exact ⟨q, List.mem_append.2 (Or.inl hq), hql, hqh⟩
          · rcases Nat.lt_or_ge i1 (r.lo + f1.length) with hs1 | hs1
            · -- non-NULL against NULL: never equal
              exfalso
              have hm1 : permutationAt (u ++ (s1' ++ f2) ++ v) i1 ∈ s1' :=
                hposA i1 h1 hs1
              have hm2 : permutationAt (u ++ (s1' ++ f2) ++ v) i2 ∈ f2 :=
                hposB i2 hs2 h3
              have := cellCmp_eq_iff.1 hceq
              rw [hsome1' _ hm1, hnull2 _ hm2] at this
              cases this
            · -- both rows NULL: the whole NULL range was pushed
              refine ⟨⟨r.lo + f1.length, r.hi⟩, ?_, hs1, h3⟩
              apply List.mem_append.2
              right
              rw [if_pos ⟨by omega, hl⟩]
              exact List.mem_singleton.2 rfl
      · -- degenerate head of at most one row: nothing to sort
        rw [if_neg hc]
        have hf1small : f1.length ≤ 1 := by omega
        rcases hpos f1 rfl with ⟨hposA, hposB⟩
        refine ⟨f1 ++ f2,
          (if r.hi - f1.length > 1 ∧ isLast = false
            then [⟨r.lo + f1.length, r.hi⟩] else []), rfl, ?_, ?_, ?_, ?_, ?_, ?_, ?_, ?_⟩
        · rw [List.length_append]; omega
        · rw [hf1, hf2]; exact List.filter_append_perm _ s
        · refine List.pairwise_append.2 ⟨pairwise_of_length_le_one hf1small, hpwf2, ?_⟩
          intro x hx y hy
          exact Or.inl (cellCmp_some_null_desc hd (hsome1 x hx) (hnull2 y hy))
        · intro hl
          simp [hl]
        · intro q hq
          rcases List.mem_singleton.1 (by
            by_cases hP : r.hi - f1.length > 1 ∧ isLast = false
            · rwa [if_pos hP] at hq
            · rw [if_neg hP] at hq; cases hq) with rfl
          refine ⟨?_, ?_, le_refl _⟩
          · show r.lo ≤ r.lo + f1.length
            omega
          · show r.lo + f1.length ≤ r.hi
            omega
        · by_cases hP : r.hi - f1.length > 1 ∧ isLast = false
          · rw [if_pos hP]; exact List.pairwise_singleton _ _
          · rw [if_neg hP]; exact List.Pairwise.nil
        · intro q hq i1 i2 h1 h2 h3
          rcases List.mem_singleton.1 (by
            by_cases hP : r.hi - f1.length > 1 ∧ isLast = false
            · rwa [if_pos hP] at hq
            · rw [if_neg hP] at hq; cases hq) with rfl
          have h1' : r.lo + f1.length ≤ i1 := h1
          have h3' : i2 < r.hi := h3
          have hm1 : permutationAt (u ++ (f1 ++ f2) ++ v) i1 ∈ f2 :=
            hposB i1 h1' (by omega)
          have hm2 : permutationAt (u ++ (f1 ++ f2) ++ v) i2 ∈ f2 :=
            hposB i2 (by omega) h3'
          exact cellCmp_null_null (hnull2 _ hm1) (hnull2 _ hm2)
        · intro hl i1 i2 h1 h2 h3 hceq
          rcases Nat.lt_or_ge i2 (r.lo + f1.length) with hs2 | hs2
          · omega
          · rcases Nat.lt_or_ge i1 (r.lo + f1.length) with hs1 | hs1
            · exfalso
              have hm1 : permutationAt (u ++ (f1 ++ f2) ++ v) i1 ∈ f1 :=
                hposA i1 h1 hs1
              have hm2 : permutationAt (u ++ (f1 ++ f2) ++ v) i2 ∈ f2 :=
                hposB i2 hs2 h3
              have := cellCmp_eq_iff.1 hceq
              rw [hsome1 _ hm1, hnull2 _ hm2] at this
              cases this
            · refine ⟨⟨r.lo + f1.length, r.hi⟩, ?_, hs1, h3⟩
              rw [if_pos ⟨by omega, hl⟩]
              exact List.mem_singleton.2 rfl


/-! ### Specification of SortColumn (one column over the whole worklist) -/

/-- Well-formedness of a pending range worklist: ranges lie within the
permutation and are listed left to right without overlap. -/
def RangesWF (n : Nat) (rl : List Range) : Prop :=
  (∀ r ∈ rl, r.lo ≤ r.hi ∧ r.hi ≤ n) ∧ rl.Pairwise (fun a b => a.hi ≤ b.lo)

theorem drop_append_ge {l1 l2 : List Nat} {m : Nat} (h : l1.length ≤ m) :
    (l1 ++ l2).drop m = l2.drop (m - l1.length) := by
  have h1 : (l1 ++ l2).drop l1.length = l2 := List.drop_left' rfl
  have h2 : ((l1 ++ l2).drop l1.length).drop (m - l1.length) = (l1 ++ l2).drop m := by
    rw [List.drop_drop]
    congr 1
    omega
  rw [← h2, h1]

theorem slice_eq_of_pa_eq {p1 p2 : List Nat} {lo hi : Nat}
    (hlen : p1.length = p2.length) (hhi : hi ≤ p1.length)
    (hpa : ∀ i, lo ≤ i → i < hi → permutationAt p1 i = permutationAt p2 i) :
    (p1.drop lo).take (hi - lo) = (p2.drop lo).take (hi - lo) := by
  by_cases hlohi : lo ≤ hi
  · apply List.ext_getElem
    · rw [List.length_take, List.length_take, List.length_drop, List.length_drop, hlen]
    · intro m h1 h2
      rw [List.getElem_take, List.getElem_take, List.getElem_drop, List.getElem_drop]
      have hm : m < hi - lo := by
        rw [List.length_take, List.length_drop] at h1
        omega
      have hall : lo + m < p1.length := by omega
      have := hpa (lo + m) (by omega) (by omega)
      unfold permutationAt at this
      rwa [List.getD_eq_getElem _ _ hall, List.getD_eq_getElem _ _ (by omega)] at this
  · have : hi - lo = 0 := by omega
    rw [this]
    simp

theorem pa_decomp_agree {u s1 s2 v : List Nat} {lo hi i : Nat}
    (hu : u.length = lo) (hs1 : s1.length = hi - lo) (hs2 : s2.length = hi - lo)
    (hlh : lo ≤ hi) (hout : i < lo ∨ hi ≤ i) :
    permutationAt (u ++ s1 ++ v) i = permutationAt (u ++ s2 ++ v) i := by
  rcases hout with h | h
  · rw [permutationAt_before (s := s1) v hu h, permutationAt_before (s := s2) v hu h]
  · rw [permutationAt_after v hu hs1 hlh h, permutationAt_after v hu hs2 hlh h]

theorem SortColumn_spec {k : SortKeyCol α} {n : Nat} (isLast : Bool) :
    ∀ (rl : List Range) (p : List Nat) (target : List Range),
    p.length = n → RangesWF n rl →
    (∀ r ∈ rl, ((p.drop r.lo).take (r.hi - r.lo)).Pairwise (· < ·)) →
    ∃ p' RS,
      SortColumn k.descending k.data k.isNull rl target p isLast =
        (p', target ++ RS) ∧
      p'.length = n ∧
      p'.Perm p ∧
      (∀ i, (∀ r ∈ rl, i < r.lo ∨ r.hi ≤ i) →
        permutationAt p' i = permutationAt p i) ∧
      (∀ r ∈ rl,
        ((p'.drop r.lo).take (r.hi - r.lo)).Perm
          ((p.drop r.lo).take (r.hi - r.lo)) ∧
        ((p'.drop r.lo).take (r.hi - r.lo)).Pairwise (kS k)) ∧
      (isLast = true → RS = []) ∧
      (∀ q ∈ RS, ∃ r ∈ rl, r.lo ≤ q.lo ∧ q.lo ≤ q.hi ∧ q.hi ≤ r.hi) ∧
      RS.Pairwise (fun a b => a.hi ≤ b.lo) ∧
      (∀ q ∈ RS, ∀ i1 i2, q.lo ≤ i1 → i1 ≤ i2 → i2 < q.hi →
        cellCmp k (permutationAt p' i1) (permutationAt p' i2) = Ordering.eq) ∧
      (isLast = false → ∀ r ∈ rl, ∀ i1 i2, r.lo ≤ i1 → i1 < i2 → i2 < r.hi →
        cellCmp k (permutationAt p' i1) (permutationAt p' i2) = Ordering.eq →
        ∃ q ∈ RS, q.lo ≤ i1 ∧ i2 < q.hi) := by
  intro rl
  induction rl with
  | nil =>
    intro p target hplen _ _
    refine ⟨p, [], by simp [SortColumn], hplen, List.Perm.refl p, fun i _ => rfl,
      by simp, fun _ => rfl, by simp, by simp, by simp, by simp⟩
  | cons r rl' ih =>
    intro p target hplen hwf hslice
    rcases hwf with ⟨hbnd, hpwr⟩
    rcases hbnd r (List.mem_cons_self _ _) with ⟨hrlh, hrhi⟩
    rcases List.pairwise_cons.1 hpwr with ⟨hhead, htail⟩
    -- decompose p at the head range
    have hdecomp : p = p.take r.lo ++ (p.drop r.lo).take (r.hi - r.lo) ++ p.drop r.hi := by
      have h1 : p.take r.lo ++ p.drop r.lo = p := List.take_append_drop _ _
      have h2 : ((p.drop r.lo).take (r.hi - r.lo)) ++ ((p.drop r.lo).drop (r.hi - r.lo))
          = p.drop r.lo := List.take_append_drop _ _
      have h3 : (p.drop r.lo).drop (r.hi - r.lo) = p.drop r.hi := by
        rw [List.drop_drop]
        congr 1
        omega
      rw [List.append_assoc, ← h3, h2, h1]
    have hulen : (p.take r.lo).length = r.lo := by
      rw [List.length_take]
      have : r.lo ≤ p.length := by omega
      omega
    have hslen : ((p.drop r.lo).take (r.hi - r.lo)).length = r.hi - r.lo := by
      rw [List.length_take, List.length_drop]
      omega
    rcases SortRange_spec (k := k) (u := p.take r.lo)
      (s := (p.drop r.lo).take (r.hi - r.lo)) (v := p.drop r.hi) (r := r)
      target isLast hdecomp hulen hslen hrlh (hslice r (List.mem_cons_self _ _)) with
      ⟨s2, rs1, heq1, hs2len, hs2perm, hs2pw, hrs1last, hrs1bnd, hrs1pw, hrs1cls, hrs1cov⟩
    set P2 : List Nat := p.take r.lo ++ s2 ++ p.drop r.hi with hP2
    have hP2len : P2.length = n := by
      rw [hP2]
      simp only [List.length_append]
      rw [hulen, hs2len, List.length_drop]
      omega
    -- agreement of p and P2 outside the head range
    have hagree : ∀ i, i < r.lo ∨ r.hi ≤ i →
        permutationAt P2 i = permutationAt p i := by
      intro i hout
      rw [hP2]
      conv_rhs => rw [hdecomp]
      exact pa_decomp_agree hulen hs2len hslen hrlh hout
    have hdropP2 : ∀ m, r.hi ≤ m → P2.drop m = p.drop m := by
      intro m hm
      rw [hP2]
      conv_rhs => rw [hdecomp]
      have hlen1 : (p.take r.lo ++ s2).length = r.hi := by
        rw [List.length_append, hulen, hs2len]
        omega
      have hlen2 : (p.take r.lo ++ (p.drop r.lo).take (r.hi - r.lo)).length = r.hi := by
        rw [List.length_append, hulen, hslen]
        omega
      rw [show p.take r.lo ++ s2 ++ p.drop r.hi
            = (p.take r.lo ++ s2) ++ p.drop r.hi by simp,
          show p.take r.lo ++ (p.drop r.lo).take (r.hi - r.lo) ++ p.drop r.hi
            = (p.take r.lo ++ (p.drop r.lo).take (r.hi - r.lo)) ++ p.drop r.hi by simp,
          drop_append_ge (by omega), drop_append_ge (by omega), hlen1, hlen2]
    have hsliceP2 : ∀ r' ∈ rl',
        (P2.drop r'.lo).take (r'.hi - r'.lo) = (p.drop r'.lo).take (r'.hi - r'.lo) := by
      intro r' hr'
      rw [hdropP2 r'.lo (le_trans (hhead r' hr') (le_refl _))]
    have hsliceP2r : (P2.drop r.lo).take (r.hi - r.lo) = s2 := by
      rw [hP2]
      exact slice_of_decomp _ hulen hs2len
    -- the fold over the tail
    rcases ih P2 (target ++ rs1) hP2len
      ⟨fun r' hr' => hbnd r' (List.mem_cons_of_mem _ hr'), htail⟩
      (by
        intro r' hr'
        rw [hsliceP2 r' hr']
        exact hslice r' (List.mem_cons_of_mem _ hr')) with
      ⟨p', RS2, heq2, hp'len, hp'permP2, huntouched, hslices, hRS2last, hRS2bnd,
        hRS2pw, hRS2cls, hRS2cov⟩
    -- positions of the head range are untouched by the tail fold
    have hheadagree : ∀ i, i < r.hi → permutationAt p' i = permutationAt P2 i := by
      intro i hi
      apply huntouched
      intro r' hr'
      left
      exact lt_of_lt_of_le hi (hhead r' hr')
    have hP2permp : P2.Perm p := by
      conv_rhs => rw [hdecomp]
      exact (hs2perm.append_left (p.take r.lo)).append_right (p.drop r.hi)
    refine ⟨p', rs1 ++ RS2, ?_, hp'len, hp'permP2.trans hP2permp, ?_, ?_, ?_, ?_, ?_,
      ?_, ?_⟩
    · rw [SortColumn, List.foldl_cons]
      show List.foldl _ (SortRange k.descending k.data k.isNull r target p isLast) rl'
        = (p', target ++ (rs1 ++ RS2))
      rw [heq1]
      show SortColumn k.descending k.data k.isNull rl' (target ++ rs1) P2 isLast = _
      rw [heq2, List.append_assoc]
    · intro i hout
      rw [huntouched i (fun r' hr' => hout r' (List.mem_cons_of_mem _ hr'))]
      exact hagree i (hout r (List.mem_cons_self _ _))
    · intro r'' hr''
      rcases List.mem_cons.1 hr'' with rfl | hr'
      · have hsl : (p'.drop r''.lo).take (r''.hi - r''.lo)
            = (P2.drop r''.lo).take (r''.hi - r''.lo) := by
          apply slice_eq_of_pa_eq (by omega) (by omega)
          intro i h1 h2
          exact hheadagree i (by omega)
        rw [hsl, hsliceP2r]
        constructor
        · exact hs2perm
        · exact hs2pw
      · rcases hslices r'' hr' with ⟨hperm', hpw'⟩
        rw [hsliceP2 r'' hr'] at hperm'
        exact ⟨hperm', hpw'⟩
    · intro hl
      rw [hrs1last hl, hRS2last hl]
      rfl
    · intro q hq
      rcases List.mem_append.1 hq with h | h
      · exact ⟨r, List.mem_cons_self _ _, hrs1bnd q h⟩
      · rcases hRS2bnd q h with ⟨r', hr', hb⟩
        exact ⟨r', List.mem_cons_of_mem _ hr', hb⟩
    · refine List.pairwise_append.2 ⟨hrs1pw, hRS2pw, ?_⟩
      intro q hq q' hq'
      rcases hrs1bnd q hq with ⟨_, _, hqhi⟩
      rcases hRS2bnd q' hq' with ⟨r', hr', hlo', _, _⟩
      exact le_trans hqhi (le_trans (hhead r' hr') hlo')
    · intro q hq i1 i2 h1 h2 h3
      rcases List.mem_append.1 hq with h | h
      · rcases hrs1bnd q h with ⟨hb1, hb2, hb3⟩
        have hcc := hrs1cls q h i1 i2 h1 h2 h3
        rw [hheadagree i1 (by omega), hheadagree i2 (by omega)]
        rw [hP2]
        exact hcc
      · exact hRS2cls q h i1 i2 h1 h2 h3
    · intro hl r'' hr'' i1 i2 h1 h2 h3 hceq
      rcases List.mem_cons.1 hr'' with rfl | hr'
      · have hceq' : cellCmp k (permutationAt P2 i1) (permutationAt P2 i2)
            = Ordering.eq := by
          rw [← hheadagree i1 (by omega), ← hheadagree i2 (by omega)]
          exact hceq
        rw [hP2] at hceq'
        rcases hrs1cov hl i1 i2 h1 h2 h3 hceq' with ⟨q, hq, hql, hqh⟩
        exact ⟨q, List.mem_append.2 (Or.inl hq), hql, hqh⟩
      · rcases hRS2cov hl r'' hr' i1 i2 h1 h2 h3 hceq with ⟨q, hq, hql, hqh⟩
        exact ⟨q, List.mem_append.2 (Or.inr hq), hql, hqh⟩

/-! ### Bridges between list-level and position-level statements -/

theorem pa_eq_getElem {p : List Nat} {i : Nat} (h : i < p.length) :
    permutationAt p i = p[i] := by
  unfold permutationAt
  exact List.getD_eq_getElem _ _ h

theorem pairwise_pa {p : List Nat} {R : Nat → Nat → Prop} (h : p.Pairwise R) :
    ∀ i1 i2, i1 < i2 → i2 < p.length →
      R (permutationAt p i1) (permutationAt p i2) := by
  intro i1 i2 h1 h2
  rw [pa_eq_getElem (by omega), pa_eq_getElem h2]
  exact List.pairwise_iff_getElem.1 h i1 i2 (by omega) h2 h1

theorem pairwise_of_pa {p : List Nat} {R : Nat → Nat → Prop}
    (h : ∀ i1 i2, i1 < i2 → i2 < p.length →
      R (permutationAt p i1) (permutationAt p i2)) : p.Pairwise R := by
  rw [List.pairwise_iff_getElem]
  intro i j hi hj hij
  rw [← pa_eq_getElem hi, ← pa_eq_getElem hj]
  exact h i j hij hj

theorem pa_mem_slice {p : List Nat} {r : Range} {i : Nat} (hhi : r.hi ≤ p.length)
    (h1 : r.lo ≤ i) (h2 : i < r.hi) :
    permutationAt p i ∈ (p.drop r.lo).take (r.hi - r.lo) := by
  have hm : i - r.lo < ((p.drop r.lo).take (r.hi - r.lo)).length := by
    rw [List.length_take, List.length_drop]
    omega
  rw [pa_eq_getElem (by omega)]
  have : ((p.drop r.lo).take (r.hi - r.lo))[i - r.lo] = p[i] := by
    rw [List.getElem_take, List.getElem_drop]
    congr 1
    omega
  rw [← this]
  exact List.getElem_mem hm

theorem slice_pairwise_pa {p : List Nat} {R : Nat → Nat → Prop} {r : Range}
    (hhi : r.hi ≤ p.length)
    (h : ((p.drop r.lo).take (r.hi - r.lo)).Pairwise R) :
    ∀ i1 i2, r.lo ≤ i1 → i1 < i2 → i2 < r.hi →
      R (permutationAt p i1) (permutationAt p i2) := by
  intro i1 i2 h1 h2 h3
  have hlen : ((p.drop r.lo).take (r.hi - r.lo)).length = r.hi - r.lo := by
    rw [List.length_take, List.length_drop]
    omega
  have g := List.pairwise_iff_getElem.1 h (i1 - r.lo) (i2 - r.lo)
    (by omega) (by omega) (by omega)
  have hb1 : i1 - r.lo < ((p.drop r.lo).take (r.hi - r.lo)).length := by omega
  have e1 : ((p.drop r.lo).take (r.hi - r.lo))[i1 - r.lo]
      = permutationAt p i1 := by
    rw [List.getElem_take, List.getElem_drop,
      pa_eq_getElem (show i1 < p.length by omega)]
    congr 1
    omega
  have hb2 : i2 - r.lo < ((p.drop r.lo).take (r.hi - r.lo)).length := by omega
  have e2 : ((p.drop r.lo).take (r.hi - r.lo))[i2 - r.lo]
      = permutationAt p i2 := by
    rw [List.getElem_take, List.getElem_drop,
      pa_eq_getElem (show i2 < p.length by omega)]
    congr 1
    omega
  rwa [e1, e2] at g

theorem slice_pairwise_of_pa {p : List Nat} {R : Nat → Nat → Prop} {r : Range}
    (hhi : r.hi ≤ p.length)
    (h : ∀ i1 i2, r.lo ≤ i1 → i1 < i2 → i2 < r.hi →
      R (permutationAt p i1) (permutationAt p i2)) :
    ((p.drop r.lo).take (r.hi - r.lo)).Pairwise R := by
  rw [List.pairwise_iff_getElem]
  intro i j hi hj hij
  have hlen : ((p.drop r.lo).take (r.hi - r.lo)).length = r.hi - r.lo := by
    rw [List.length_take, List.length_drop]
    omega
  have hj' : j < r.hi - r.lo := by
    rw [hlen] at hj
    exact hj
  have e1 : ((p.drop r.lo).take (r.hi - r.lo))[i] = permutationAt p (r.lo + i) := by
    rw [List.getElem_take, List.getElem_drop,
      pa_eq_getElem (show r.lo + i < p.length by omega)]
  have e2 : ((p.drop r.lo).take (r.hi - r.lo))[j] = permutationAt p (r.lo + j) := by
    rw [List.getElem_take, List.getElem_drop,
      pa_eq_getElem (show r.lo + j < p.length by omega)]
  rw [e1, e2]
  exact h (r.lo + i) (r.lo + j) (by omega) (by omega) (by omega)

/-! ### Lexicographic composition lemmas -/

theorem lexLt_append_left {done e : List (SortKeyCol α)} {x y : Nat}
    (h : lexLt done x y) : lexLt (done ++ e) x y := by
  unfold lexLt at *
  rw [lexCmp_append]
  rw [h]

theorem lexEq_append_iff {done : List (SortKeyCol α)} {k : SortKeyCol α}
    {x y : Nat} : lexEq (done ++ [k]) x y ↔
      lexEq done x y ∧ cellCmp k x y = Ordering.eq := by
  unfold lexEq
  rw [lexCmp_append]
  constructor
  · intro h
    rcases hd : lexCmp done x y with _ | _ | _ <;> rw [hd] at h <;> try simp_all
    simp only [lexCmp] at h
    rcases hc : cellCmp k x y with _ | _ | _ <;> rw [hc] at h <;> simp_all
  · rintro ⟨h1, h2⟩
    rw [h1]
    simp only [lexCmp, h2]

theorem sLt_append_of_eq_kS {done : List (SortKeyCol α)} {k : SortKeyCol α}
    {x y : Nat} (he : lexEq done x y) (hk : kS k x y) : sLt (done ++ [k]) x y := by
  rcases hk with h | ⟨h, hlt⟩
  · left
    unfold lexLt
    rw [lexCmp_append, he]
    simp only [lexCmp, h]
  · right
    exact ⟨lexEq_append_iff.2 ⟨he, h⟩, hlt⟩

theorem lexEq_symm {done : List (SortKeyCol α)} {x y : Nat}
    (h : lexEq done x y) : lexEq done y x := by
  unfold lexEq at *
  rw [← lexCmp_swap, h]
  rfl

theorem lexLt_congr {done : List (SortKeyCol α)} {x x' y y' : Nat}
    (hx : lexEq done x x') (hy : lexEq done y y') (h : lexLt done x y) :
    lexLt done x' y' := by
  unfold lexLt at *
  rw [← lexCmp_congr_left hx y', ← lexCmp_congr_right hy x]
  exact h

theorem lexEq_congr {done : List (SortKeyCol α)} {x x' y y' : Nat}
    (hx : lexEq done x x') (hy : lexEq done y y') (h : lexEq done x y) :
    lexEq done x' y' := by
  unfold lexEq at *
  rw [← lexCmp_congr_left hx y', ← lexCmp_congr_right hy x]
  exact h

/-! ### The global invariant of the column loop -/

/-- Invariant of `SortPermutation`'s column loop after processing the key
columns `done`: the permutation is a rearrangement of `[0..n)`, it is strictly
sorted by the stable refinement order of the processed keys, every pending
range holds rows that are tied on the processed keys, and every tied pair of
rows lies inside some pending range. -/
structure GlobalInv (done : List (SortKeyCol α)) (n : Nat) (p : List Nat)
    (rl : List Range) : Prop where
  perm : p.Perm (List.range n)
  wf : RangesWF n rl
  sorted : p.Pairwise (sLt done)
  classes : ∀ r ∈ rl, ∀ i1 i2, r.lo ≤ i1 → i1 ≤ i2 → i2 < r.hi →
    lexEq done (permutationAt p i1) (permutationAt p i2)
  cover : ∀ i1 i2, i1 < i2 → i2 < n →
    lexEq done (permutationAt p i1) (permutationAt p i2) →
    ∃ r ∈ rl, r.lo ≤ i1 ∧ i2 < r.hi

theorem column_step {k : SortKeyCol α} {done : List (SortKeyCol α)} {n : Nat}
    {p : List Nat} {rl : List Range} (isLast : Bool)
    (hinv : GlobalInv done n p rl) :
    ∃ p' RS, SortColumn k.descending k.data k.isNull rl [] p isLast = (p', RS) ∧
      p'.Perm (List.range n) ∧
      p'.Pairwise (sLt (done ++ [k])) ∧
      (isLast = true → RS = []) ∧
      (isLast = false → GlobalInv (done ++ [k]) n p' RS) := by
  have hplen : p.length = n := by
    rw [hinv.perm.length_eq, List.length_range]
  rcases hinv.wf with ⟨hbnd, hpwr⟩
  -- slices are strictly increasing row-index lists
  have hslice : ∀ r ∈ rl, ((p.drop r.lo).take (r.hi - r.lo)).Pairwise (· < ·) := by
    intro r hr
    apply slice_pairwise_of_pa (by rw [hplen]; exact (hbnd r hr).2)
    intro i1 i2 h1 h2 h3
    have hs := pairwise_pa hinv.sorted i1 i2 h2 (by
      rw [hplen]; exact lt_of_lt_of_le h3 (hbnd r hr).2)
    have he := hinv.classes r hr i1 i2 h1 (le_of_lt h2) h3
    rcases hs with hlt | ⟨_, hord⟩
    · exfalso
      unfold lexLt at hlt
      unfold lexEq at he
      rw [he] at hlt
      cases hlt
    · exact hord
  rcases SortColumn_spec (k := k) (n := n) isLast rl p [] hplen ⟨hbnd, hpwr⟩ hslice with
    ⟨p', RS, heq, hp'len, hp'perm, huntouched, hslices, hRSlast, hRSbnd, hRSpw,
      hRScls, hRScov⟩
  -- element-level class facts for the old slices
  have hclass_elems : ∀ r ∈ rl, ∀ x ∈ (p.drop r.lo).take (r.hi - r.lo),
      ∀ y ∈ (p.drop r.lo).take (r.hi - r.lo), lexEq done x y := by
    intro r hr x hx y hy
    have hhi : r.hi ≤ p.length := by rw [hplen]; exact (hbnd r hr).2
    rcases List.mem_iff_getElem.1 hx with ⟨mx, hmx, hex⟩
    rcases List.mem_iff_getElem.1 hy with ⟨my, hmy, hey⟩
    have hlen : ((p.drop r.lo).take (r.hi - r.lo)).length = r.hi - r.lo := by
      rw [List.length_take, List.length_drop]
      omega
    have hgx : x = permutationAt p (r.lo + mx) := by
      rw [← hex, List.getElem_take, List.getElem_drop,
        pa_eq_getElem (show r.lo + mx < p.length by omega)]
    have hgy : y = permutationAt p (r.lo + my) := by
      rw [← hey, List.getElem_take, List.getElem_drop,
        pa_eq_getElem (show r.lo + my < p.length by omega)]
    rcases le_or_lt mx my with hmxy | hmxy
    · rw [hgx, hgy]
      exact hinv.classes r hr (r.lo + mx) (r.lo + my) (by omega) (by omega) (by omega)
    · rw [hgx, hgy]
      exact lexEq_symm (hinv.classes r hr (r.lo + my) (r.lo + mx) (by omega)
        (by omega) (by omega))
  -- the new occupant of any position is tied (on done) with the old occupant
  have hocc : ∀ i, i < n → lexEq done (permutationAt p' i) (permutationAt p i) := by
    intro i hi
    by_cases hc : ∃ r ∈ rl, r.lo ≤ i ∧ i < r.hi
    · rcases hc with ⟨r, hr, h1, h2⟩
      have hhi : r.hi ≤ p.length := by rw [hplen]; exact (hbnd r hr).2
      have hm' : permutationAt p' i ∈ (p'.drop r.lo).take (r.hi - r.lo) :=
        pa_mem_slice (by rw [hp'len]; exact (hbnd r hr).2) h1 h2
      have hm : permutationAt p i ∈ (p.drop r.lo).take (r.hi - r.lo) :=
        pa_mem_slice hhi h1 h2
      have hm'2 : permutationAt p' i ∈ (p.drop r.lo).take (r.hi - r.lo) :=
        ((hslices r hr).1.mem_iff).1 hm'
      exact hclass_elems r hr _ hm'2 _ hm
    · push_neg at hc
      rw [huntouched i (by
        intro r hr
        rcases Nat.lt_or_ge i r.lo with h | h
        · exact Or.inl h
        · exact Or.inr (by
            rcases Nat.lt_or_ge i r.hi with h' | h'
            · exact absurd h' (by simpa using hc r hr h)
            · exact h'))]
      unfold lexEq
      exact lexCmp_refl done _
  -- sortedness after this column
  have hsorted' : p'.Pairwise (sLt (done ++ [k])) := by
    apply pairwise_of_pa
    intro a b hab hb
    have hb' : b < n := by rwa [hp'len] at hb
    by_cases hc : ∃ r ∈ rl, r.lo ≤ a ∧ b < r.hi
    · rcases hc with ⟨r, hr, h1, h2⟩
      have hhi' : r.hi ≤ p'.length := by rw [hp'len]; exact (hbnd r hr).2
      have hkS := slice_pairwise_pa hhi' (hslices r hr).2 a b h1 hab h2
      have hm'a : permutationAt p' a ∈ (p'.drop r.lo).take (r.hi - r.lo) :=
        pa_mem_slice hhi' h1 (by omega)
      have hm'b : permutationAt p' b ∈ (p'.drop r.lo).take (r.hi - r.lo) :=
        pa_mem_slice hhi' (by omega) h2
      have heqd : lexEq done (permutationAt p' a) (permutationAt p' b) :=
        hclass_elems r hr _ (((hslices r hr).1.mem_iff).1 hm'a)
          _ (((hslices r hr).1.mem_iff).1 hm'b)
      exact sLt_append_of_eq_kS heqd hkS
    · -- not inside a common pending range: strictly ordered already
      have ha' : a < n := by omega
      have hold := pairwise_pa hinv.sorted a b hab (by omega)
      have hnec : ¬ lexEq done (permutationAt p a) (permutationAt p b) := by
        intro hcon
        exact hc (hinv.cover a b hab hb' hcon)
      have hlt : lexLt done (permutationAt p a) (permutationAt p b) := by
        rcases hold with h | ⟨h, _⟩
        · exact h
        · exact absurd h hnec
      left
      apply lexLt_append_left
      exact lexLt_congr (lexEq_symm (hocc a ha')) (lexEq_symm (hocc b hb')) hlt
  refine ⟨p', RS, by simpa using heq, hp'perm.trans hinv.perm, hsorted', hRSlast, ?_⟩
  intro hl
  refine ⟨hp'perm.trans hinv.perm, ⟨?_, hRSpw⟩, hsorted', ?_, ?_⟩
  · intro q hq
    rcases hRSbnd q hq with ⟨r, hr, hb1, hb2, hb3⟩
    exact ⟨hb2, le_trans hb3 (hbnd r hr).2⟩
  · -- classes of the new pending ranges
    intro q hq i1 i2 h1 h2 h3
    rcases hRSbnd q hq with ⟨r, hr, hb1, hb2, hb3⟩
    have hhi' : r.hi ≤ p'.length := by rw [hp'len]; exact (hbnd r hr).2
    have hcc := hRScls q hq i1 i2 h1 h2 h3
    have h1' : r.lo ≤ i1 := by omega
    have h3' : i2 < r.hi := by omega
    have hm'a : permutationAt p' i1 ∈ (p'.drop r.lo).take (r.hi - r.lo) :=
      pa_mem_slice hhi' h1' (by omega)
    have hm'b : permutationAt p' i2 ∈ (p'.drop r.lo).take (r.hi - r.lo) :=
      pa_mem_slice hhi' (by omega) h3'
    have heqd : lexEq done (permutationAt p' i1) (permutationAt p' i2) :=
      hclass_elems r hr _ (((hslices r hr).1.mem_iff).1 hm'a)
        _ (((hslices r hr).1.mem_iff).1 hm'b)
    exact lexEq_append_iff.2 ⟨heqd, hcc⟩
  · -- coverage by the new pending ranges
    intro i1 i2 h12 h2n hlex
    rcases lexEq_append_iff.1 hlex with ⟨heqd, hck⟩
    have h1n : i1 < n := by omega
    have hcommon : ∃ r ∈ rl, r.lo ≤ i1 ∧ i2 < r.hi := by
      apply hinv.cover i1 i2 h12 h2n
      exact lexEq_congr (hocc i1 h1n) (hocc i2 h2n) heqd
    rcases hcommon with ⟨r, hr, h1, h2⟩
    exact hRScov hl r hr i1 i2 h1 h12 h2 hck

/-! ### Correctness of the full column loop -/

theorem sortColumnsLoop_spec {n : Nat} :
    ∀ (keys done : List (SortKeyCol α)) (p : List Nat) (rl : List Range),
    GlobalInv done n p rl →
    (sortColumnsLoop keys p rl).Perm (List.range n) ∧
    (sortColumnsLoop keys p rl).Pairwise (sLt (done ++ keys)) := by
  intro keys
  induction keys with
  | nil =>
    intro done p rl hinv
    exact ⟨hinv.perm, by simpa using hinv.sorted⟩
  | cons k rest ih =>
    intro done p rl hinv
    rcases column_step (k := k) rest.isEmpty hinv with
      ⟨p', RS, heq, hperm', hsorted', hlastnil, hinv'⟩
    have hsplit : done ++ k :: rest = (done ++ [k]) ++ rest := by simp
    simp only [sortColumnsLoop]
    rw [heq]
    by_cases hRS : RS.isEmpty
    · simp only [hRS, if_true]
      refine ⟨hperm', ?_⟩
      rcases hrest : rest with _ | ⟨k2, rest'⟩
      · simpa using hsorted'
      · have hinv'' : GlobalInv (done ++ [k]) n p' RS := by
          apply hinv'
          rw [hrest]
          rfl
        have hRSnil : RS = [] := by
          rwa [List.isEmpty_iff] at hRS
        rw [← hrest, hsplit]
        apply pairwise_of_pa
        intro a b hab hb
        have hb' : b < n := by
          rwa [hperm'.length_eq, List.length_range] at hb
        have hs := pairwise_pa hsorted' a b hab hb
        rcases hs with hlt | ⟨heqq, _⟩
        · left
          exact lexLt_append_left hlt
        · exfalso
          rcases hinv''.cover a b hab hb' heqq with ⟨r, hr, _⟩
          rw [hRSnil] at hr
          cases hr
    · simp only [hRS, if_false]
      have hrest : rest.isEmpty = false := by
        rcases hrestE : rest.isEmpty with _ | _
        · rfl
        · exfalso
          have := hlastnil hrestE
          rw [this] at hRS
          exact hRS rfl
      have hinv'' : GlobalInv (done ++ [k]) n p' RS := hinv' hrest
      have := ih (done ++ [k]) p' RS hinv''
      rw [hsplit]
      exact this

/-- The initial worklist invariant of `SortPermutation`. -/
theorem initial_inv (n : Nat) :
    GlobalInv ([] : List (SortKeyCol α)) n (List.range n) [⟨0, n⟩] := by
  refine ⟨List.Perm.refl _, ⟨?_, List.pairwise_singleton _ _⟩, ?_, ?_, ?_⟩
  · intro r hr
    rcases List.mem_singleton.1 hr with rfl
    exact ⟨Nat.zero_le _, le_refl _⟩
  · exact (List.pairwise_lt_range n).imp (fun h => Or.inr ⟨rfl, h⟩)
  · intro r hr i1 i2 _ _ _
    rfl
  · intro i1 i2 h1 h2 _
    exact ⟨⟨0, n⟩, List.mem_singleton.2 rfl, Nat.zero_le _, h2⟩

/-- Main correctness of the column-progressive sort: the computed permutation
is a rearrangement of `[0..n)` that is strictly sorted by the stable
refinement order `sLt`. -/
theorem SortPermutation_perm_sorted (keys : List (SortKeyCol α)) (n : Nat) :
    (SortPermutation keys n).Perm (List.range n) ∧
    (SortPermutation keys n).Pairwise (sLt keys) := by
  have h := sortColumnsLoop_spec keys [] (List.range n) [⟨0, n⟩] (initial_inv n)
  simpa [SortPermutation] using h

/-- C1: for every input view `v` (its rows indexed `0 .. n-1`) and every bound
sort order (list of key columns with per-key direction and nullability), the
permutation computed by `SortPermutation` is a permutation of the row indices
of `v` — no row added, dropped, or duplicated — and is non-decreasing under
the sort order: keys compared in declared precedence (`lexCmp`), honoring the
per-key direction and NULL ordering. -/
theorem C1_SortPermutation_perm_and_sorted (keys : List (SortKeyCol α)) (n : Nat) :
    (SortPermutation keys n).Perm (List.range n) ∧
    (SortPermutation keys n).Pairwise (lexLe keys) := by
  rcases SortPermutation_perm_sorted keys n with ⟨hperm, hsorted⟩
  refine ⟨hperm, hsorted.imp ?_⟩
  intro x y h
  unfold lexLe
  rcases h with h | ⟨h, _⟩
  · unfold lexLt at h
    rw [h]
    simp
  · unfold lexEq at h
    rw [h]
    simp

/-- C2: the sort is stable — any two rows that compare equal under all sort
keys appear in the output permutation in their original input-index order. -/
theorem C2_SortPermutation_stable (keys : List (SortKeyCol α)) (n : Nat) :
    (SortPermutation keys n).Pairwise (fun x y => lexEq keys x y → x < y) := by
  rcases SortPermutation_perm_sorted keys n with ⟨_, hsorted⟩
  refine hsorted.imp ?_
  intro x y h he
  rcases h with h | ⟨_, h⟩
  · exfalso
    unfold lexLt at h
    unfold lexEq at he
    rw [he] at h
    cases h
  · exact h

/-- C3: for a nullable sort key, after `SortRange` processes a working range
`[r.lo, r.hi)`, the resulting subrange splits as `s1 ++ s2` where with ASC
direction `s1` holds exactly the NULL rows and `s2` the non-NULL rows (NULLs
precede), and with DESC direction `s1` holds the non-NULL rows and `s2` the
NULL rows (NULLs follow); moreover NULL cells compare equal to each other and
strictly below any non-NULL cell (before the direction flip). -/
theorem C3_SortRange_null_placement {k : SortKeyCol α} {nl : Nat → Bool}
    (hnl : k.isNull = some nl) {u s v p : List Nat} {r : Range}
    (target : List Range) (isLast : Bool)
    (hp : p = u ++ s ++ v) (hu : u.length = r.lo) (hs : s.length = r.hi - r.lo)
    (hlh : r.lo ≤ r.hi) :
    ∃ s1 s2,
      (SortRange k.descending k.data k.isNull r target p isLast).1
        = u ++ (s1 ++ s2) ++ v ∧
      (s1 ++ s2).Perm s ∧
      (k.descending = false → (∀ x ∈ s1, nl x = true) ∧ (∀ x ∈ s2, nl x = false)) ∧
      (k.descending = true → (∀ x ∈ s1, nl x = false) ∧ (∀ x ∈ s2, nl x = true)) ∧
      (∀ x y, nl x = true → nl y = true → cellCmp k x y = Ordering.eq) ∧
      (∀ x y, nl x = true → nl y = false →
        optCmp (cellOf k x) (cellOf k y) = Ordering.lt) := by
  have hnulleq : ∀ x y, nl x = true → nl y = true → cellCmp k x y = Ordering.eq :=
    fun x y hx hy => cellCmp_null_null (cellOf_null hnl hx) (cellOf_null hnl hy)
  have hnulllt : ∀ x y, nl x = true → nl y = false →
      optCmp (cellOf k x) (cellOf k y) = Ordering.lt := by
    intro x y hx hy
    rw [cellOf_null hnl hx, cellOf_notnull hnl hy]
    rfl
  rw [hnl]
  rcases hd : k.descending with _ | _
  · -- ascending: NULLs first
    have hmem1 : ∀ x ∈ s.filter (nullPartitionPredicate false nl), nl x = true := by
      intro x hx
      have := (List.mem_filter.1 hx).2
      rwa [nullPartitionPredicate_false] at this
    have hmem2 : ∀ x ∈ s.filter (fun i => !(nullPartitionPredicate false nl i)),
        nl x = false := by
      intro x hx
      have := (List.mem_filter.1 hx).2
      simpa [nullPartitionPredicate_false] using this
    set f1 := s.filter (nullPartitionPredicate false nl) with hf1
    set f2 := s.filter (fun i => !(nullPartitionPredicate false nl i)) with hf2
    have hperm12 : (f1 ++ f2).Perm s := by
      rw [hf1, hf2]
      exact List.filter_append_perm _ s
    have hl12 : f1.length + f2.length = s.length := by
      have := hperm12.length_eq
      rwa [List.length_append] at this
    have hrw : u ++ (f1 ++ (f2 ++ v)) = (u ++ f1) ++ f2 ++ v := by
      simp [List.append_assoc]
    have hu2 : (u ++ f1).length = r.lo + f1.length := by
      rw [List.length_append, hu]
    have hs2 : f2.length = r.hi - (r.lo + f1.length) := by omega
    have h1 : permutationSort ((u ++ f1) ++ f2 ++ v) (r.lo + f1.length) r.hi
        (lessThanComparator false k.data)
        = (u ++ f1) ++
          f2.mergeSort (fun a b => !(lessThanComparator false k.data b a)) ++ v := by
      unfold permutationSort
      rw [take_of_decomp f2 v hu2, slice_of_decomp v hu2 hs2,
        drop_hi_of_decomp v hu2 hs2 (by omega)]
    have hsnnr : ∀ (tgt : List Range) (isL : Bool),
        (SortNonNullRange false k.data ⟨r.lo + f1.length, r.hi⟩ tgt
          (u ++ (f1 ++ (f2 ++ v))) isL).1
        = u ++ (f1 ++
            ((f2.mergeSort (fun a b => !(lessThanComparator false k.data b a))) ++ v)) := by
      intro tgt isL
      have h2 : (SortNonNullRange false k.data ⟨r.lo + f1.length, r.hi⟩ tgt
          (u ++ (f1 ++ (f2 ++ v))) isL).1
          = permutationSort (u ++ (f1 ++ (f2 ++ v))) (r.lo + f1.length) r.hi
              (lessThanComparator false k.data) := by
        simp only [SortNonNullRange]
        rcases isL with _ | _ <;> simp
      rw [h2, hrw, h1]
      simp [List.append_assoc]
    have hcode1 : (SortRange false k.data (some nl) r target p isLast).1 =
        u ++ (f1 ++ (if r.hi - f1.length > 1 then
          f2.mergeSort (fun a b => !(lessThanComparator false k.data b a))
          else f2)) ++ v := by
      simp only [SortRange]
      rw [permutationPartition_decomp (nullPartitionPredicate false nl) hp hu hs hlh]
      rcases isLast with _ | _ <;> by_cases hc : f1.length > 1 <;>
        by_cases hh : r.hi - f1.length > 1 <;>
          simp [hc, hh, ← hf1, ← hf2, List.append_assoc] <;>
            simpa [List.append_assoc] using hsnnr _ _
    by_cases hh : r.hi - f1.length > 1
    · refine ⟨f1, f2.mergeSort (fun a b => !(lessThanComparator false k.data b a)),
        ?_, ?_, ?_, ?_, hnulleq, hnulllt⟩
      · rw [hcode1, if_pos hh]
      · exact ((List.mergeSort_perm f2 _).append_left f1).trans hperm12
      · intro _
        exact ⟨hmem1, fun x hx => hmem2 x ((List.mergeSort_perm f2 _).mem_iff.1 hx)⟩
      · intro hcon
        cases hcon
    · refine ⟨f1, f2, ?_, hperm12, ?_, ?_, hnulleq, hnulllt⟩
      · rw [hcode1, if_neg hh]
      · intro _
        exact ⟨hmem1, hmem2⟩
      · intro hcon
        cases hcon
  · -- descending: NULLs last
    have hmem1 : ∀ x ∈ s.filter (nullPartitionPredicate true nl), nl x = false := by
      intro x hx
      have := (List.mem_filter.1 hx).2
      simpa [nullPartitionPredicate_true] using this
    have hmem2 : ∀ x ∈ s.filter (fun i => !(nullPartitionPredicate true nl i)),
        nl x = true := by
      intro x hx
      have := (List.mem_filter.1 hx).2
      simpa [nullPartitionPredicate_true] using this
    set f1 := s.filter (nullPartitionPredicate true nl) with hf1
    set f2 := s.filter (fun i => !(nullPartitionPredicate true nl i)) with hf2
    have hperm12 : (f1 ++ f2).Perm s := by
      rw [hf1, hf2]
      exact List.filter_append_perm _ s
    have hl12 : f1.length + f2.length = s.length := by
      have := hperm12.length_eq
      rwa [List.length_append] at this
    have hs1 : f1.length = (r.lo + f1.length) - r.lo := by omega
    have h1 : permutationSort (u ++ f1 ++ (f2 ++ v)) r.lo (r.lo + f1.length)
        (lessThanComparator true k.data)
        = u ++
          f1.mergeSort (fun a b => !(lessThanComparator true k.data b a)) ++
            (f2 ++ v) := by
      unfold permutationSort
      rw [take_of_decomp f1 (f2 ++ v) hu, slice_of_decomp (f2 ++ v) hu hs1,
        drop_hi_of_decomp (f2 ++ v) hu hs1 (by omega)]
    have hsnnr : ∀ (tgt : List Range) (isL : Bool),
        (SortNonNullRange true k.data ⟨r.lo, r.lo + f1.length⟩ tgt
          (u ++ (f1 ++ (f2 ++ v))) isL).1
        = u ++
            ((f1.mergeSort (fun a b => !(lessThanComparator true k.data b a))) ++
              (f2 ++ v)) := by
      intro tgt isL
      have h2 : (SortNonNullRange true k.data ⟨r.lo, r.lo + f1.length⟩ tgt
          (u ++ (f1 ++ (f2 ++ v))) isL).1
          = permutationSort (u ++ (f1 ++ (f2 ++ v))) r.lo (r.lo + f1.length)
              (lessThanComparator true k.data) := by
        simp only [SortNonNullRange]
        rcases isL with _ | _ <;> simp
      have hrw : u ++ (f1 ++ (f2 ++ v)) = u ++ f1 ++ (f2 ++ v) := by
        simp [List.append_assoc]
      rw [h2, hrw, h1]
      simp [List.append_assoc]
    have hcode1 : (SortRange true k.data (some nl) r target p isLast).1 =
        u ++ ((if f1.length > 1 then
          f1.mergeSort (fun a b => !(lessThanComparator true k.data b a))
          else f1) ++ f2) ++ v := by
      simp only [SortRange]
      rw [permutationPartition_decomp (nullPartitionPredicate true nl) hp hu hs hlh]
      rcases isLast with _ | _ <;> by_cases hc : f1.length > 1 <;>
        by_cases hh : r.hi - f1.length > 1 <;>
          simp [hc, hh, ← hf1, ← hf2, List.append_assoc] <;>
            simpa [List.append_assoc] using hsnnr _ _
    by_cases hc : f1.length > 1
    · refine ⟨f1.mergeSort (fun a b => !(lessThanComparator true k.data b a)), f2,
        ?_, ?_, ?_, ?_, hnulleq, hnulllt⟩
      · rw [hcode1, if_pos hc]
      · exact ((List.mergeSort_perm f1 _).append_right f2).trans hperm12
      · intro hcon
        cases hcon
      · intro _
        exact ⟨fun x hx => hmem1 x ((List.mergeSort_perm f1 _).mem_iff.1 hx), hmem2⟩
    · refine ⟨f1, f2, ?_, hperm12, ?_, ?_, hnulleq, hnulllt⟩
      · rw [hcode1, if_neg hc]
      · intro hcon
        cases hcon
      · intro _
        exact ⟨hmem1, hmem2⟩


/-! ### The external-memory sort pipeline (spill and merge) -/

/-- The key columns of a sub-view holding the rows `rows` (original row ids in
view order): cell `i` of the sub-view is cell `rows[i]` of the input. -/
def viewKeys (keys : List (SortKeyCol α)) (rows : List Nat) : List (SortKeyCol α) :=
  keys.map (fun k =>
    { data := fun i => k.data (rows.getD i 0),
      isNull := k.isNull.map (fun nl => fun i => nl (rows.getD i 0)),
      descending := k.descending })

/-- `UnbufferedSorter::SortView` (sort.cc lines 431-441): builds the identity
permutation of the view's size, sorts it with `SortPermutation`, and returns
the view projected through the permutation (`BoundScanViewWithSelection`,
spec §4.8, concatenating its batches). -/
def SortView (keys : List (SortKeyCol α)) (rows : List Nat) : List Nat :=
  (SortPermutation (viewKeys keys rows) rows.length).map (fun i => rows.getD i 0)

/-- State of a `BufferingSorter` (sort.cc lines 450-554): the rows currently
materialized in `memory_buffer_` (in arrival order) and the sorted runs that
`BasicMerger` holds as spill files, in spill order. -/
structure SorterState where
  buffer : List Nat
  runs : List (List Nat)
deriving Repr, DecidableEq

/-- Modelled from the spec: `TableSink::Write` on the materialization table
(`table.h` is not part of the provided sources; spec §4.6.2 step 1).  The sink
copies a prefix of the view; how many rows fit is decided by the memory quota,
modelled by the allocator oracle value `w`.  Returns the new table contents
and the copied row count. -/
def tableSinkWrite (buffer : List Nat) (data : List Nat) (w : Nat) :
    List Nat × Nat :=
  (buffer ++ data.take w, min w data.length)

/-- `BufferingSorter::Flush` (sort.cc lines 527-539): a non-empty table is
sorted (`UnbufferedSorter::Write`, which sorts the view and hands it to the
merger as a run) and then cleared. -/
def bufferingSorterFlush (keys : List (SortKeyCol α)) (st : SorterState) :
    SorterState :=
  if st.buffer.length > 0 then
    { buffer := [], runs := st.runs ++ [SortView keys st.buffer] }
  else st

/-- `BufferingSorter::Write` (sort.cc lines 478-511): try to copy the view into
the table; on a zero-row write, flush and retry exactly once; if the retried
write still copies nothing, fail with `ERROR_MEMORY_EXCEEDED`.  `w1` and `w2`
are the allocator oracle's row capacities for the two attempts. -/
def bufferingSorterWrite (keys : List (SortKeyCol α)) (st : SorterState)
    (data : List Nat) (w1 w2 : Nat) :
    Except ReturnCode (SorterState × Nat) :=
  let t1 := tableSinkWrite st.buffer data w1
  if t1.2 > 0 then Except.ok ({ st with buffer := t1.1 }, t1.2)
  else
    let st1 := bufferingSorterFlush keys st
    let t2 := tableSinkWrite st1.buffer data w2
    if t2.2 > 0 then Except.ok ({ st1 with buffer := t2.1 }, t2.2)
    else Except.error ReturnCode.ERROR_MEMORY_EXCEEDED

/-- Modelled from the spec (§4.8): `BoundMergeUnionAll` "performs a stable
k-way merge; assumes each input is sorted by sort_order; tie-breaks by input
index".  For sorted inputs this equals the stable sort of the
input-index-tagged concatenation, ordered by the sort order and then by input
index. -/
def mergeUnionAll (keys : List (SortKeyCol α)) (inputs : List (List Nat)) :
    List Nat :=
  (((inputs.enum.map (fun ci => ci.2.map (fun x => (ci.1, x)))).flatten).mergeSort
    (fun a b =>
      match lexCmp keys a.2 b.2 with
      | Ordering.lt => true
      | Ordering.gt => false
      | Ordering.eq => decide (a.1 ≤ b.1))).map (fun a => a.2)

/-- `BasicMerger::Merge` (sort.cc lines 352-375): the spilled runs are opened
popping from the BACK of the run vector (most recently spilled first), and the
optional additional cursor is appended last; the resulting cursor list feeds
`BoundMergeUnionAll`. -/
def mergerMergeInputs (runs : List (List Nat)) (additional : Option (List Nat)) :
    List (List Nat) :=
  runs.reverse ++ (match additional with | some l => [l] | none => [])

/-- `BufferingSorter::GetResultCursor` (sort.cc lines 513-523) together with
`UnbufferedSorter::GetResultCursorMergedWith` (lines 420-429): the
still-resident table is sorted as the tail run; if no runs were spilled it is
returned directly, otherwise all runs are k-way merged. -/
def bufferingSorterResult (keys : List (SortKeyCol α)) (st : SorterState) :
    List Nat :=
  if st.runs.isEmpty then SortView keys st.buffer
  else mergeUnionAll keys (mergerMergeInputs st.runs (some (SortView keys st.buffer)))

/-- Drives the sorter over the input row stream as `Writer::WriteAll` does
(writer.h is not part of the provided sources; spec §4.6.2): each call offers
the remaining rows and the sorter consumes a non-empty prefix or fails; the
oracle lists the allocator's per-attempt row capacities for each call. -/
def driveSorter (keys : List (SortKeyCol α)) (st : SorterState) :
    List Nat → List (Nat × Nat) → Except ReturnCode SorterState
  | [], _ => Except.ok st
  | _ :: _, [] => Except.error ReturnCode.ERROR_OTHER
  | d :: data, (w1, w2) :: rest =>
    match bufferingSorterWrite keys st (d :: data) w1 w2 with
    | Except.error e => Except.error e
    | Except.ok (st', written) => driveSorter keys st' ((d :: data).drop written) rest


/-! ### `BasicMerger::AddSorted` (sort.cc lines 319-348) -/

/-- `BasicMerger::AddSorted` (sort.cc lines 319-348).  `tempFileOk` tells
whether `TempFile::Create` succeeded; `writeAll` is the outcome of
`Writer::WriteAll` on the spill sink (`Except.ok rows` carries the run's
rows); `finalize` is the outcome of `Sink::Finalize`.  Faithful ordering:
the temp-file check comes first, the WAITING_ON_BARRIER check precedes the
sink finalization, then the write failure propagates before the finalize
failure, and only full success appends the run to `file_buffers_`. -/
def addSorted (tempFileOk : Bool) (writeAll : Except ReturnCode (List Nat))
    (finalize : Except ReturnCode Unit) (fileBuffers : List (List Nat)) :
    Except ReturnCode (List (List Nat)) :=
  if tempFileOk = false then
    Except.error ReturnCode.ERROR_TEMP_FILE_CREATION_ERROR
  else if (match writeAll with
           | Except.error e => e = ReturnCode.WAITING_ON_BARRIER
           | Except.ok _ => false : Bool) then
    Except.error ReturnCode.ERROR_NOT_IMPLEMENTED
  else
    match writeAll with
    | Except.error e => Except.error e
    | Except.ok rows =>
      match finalize with
      | Except.error e2 => Except.error e2
      | Except.ok _ => Except.ok (fileBuffers ++ [rows])

/-! ### `BoundExtendedSort`'s duplicate-key check (sort.cc lines 854-889) -/

/-- One key of an `ExtendedSortSpecification` (fields used by the check:
`attribute_name()` and `case_sensitive()`). -/
structure SortSpecKey where
  attribute_name : String
  case_sensitive : Bool
deriving DecidableEq, Repr

/-- The effective case-class of a key (the condition at sort.cc lines
858-860): a key is treated as case-insensitive iff its `case_sensitive`
flag is clear AND the looked-up column has type STRING. -/
def keyClass (schema : String → DataType) (k : SortSpecKey) : Bool :=
  !k.case_sensitive && decide (schema k.attribute_name = DataType.STRING)

/-- The duplicate-key check at the top of `BoundExtendedSort` (sort.cc lines
854-889): one pass over the keys with two name sets, one for keys that are
effectively case-insensitive and one for the rest; seeing a name already in
the key's own set throws `ERROR_INVALID_ARGUMENT_VALUE`. -/
def extendedSortDupCheck (schema : String → DataType) :
    List SortSpecKey → List String → List String → Except ReturnCode Unit
  | [], _, _ => Except.ok ()
  | k :: ks, ci, cs =>
    if keyClass schema k then
      if k.attribute_name ∈ ci then
        Except.error ReturnCode.ERROR_INVALID_ARGUMENT_VALUE
      else extendedSortDupCheck schema ks (k.attribute_name :: ci) cs
    else
      if k.attribute_name ∈ cs then
        Except.error ReturnCode.ERROR_INVALID_ARGUMENT_VALUE
      else extendedSortDupCheck schema ks ci (k.attribute_name :: cs)

/-! ### `BoundSort`'s projector defaulting (sort.cc lines 815-833) -/

/-- Modelled from the spec: `ProjectAllAttributes()` bound to a schema
(projector.h is not part of the provided sources): the bound projector
selects every attribute of the schema, in order. -/
def projectAllAttributesBound (schema : List (String × DataType)) : List Nat :=
  List.range schema.length

/-- The projector defaulting in `BoundSort` (sort.cc lines 822-825): a null
result projector is replaced by `ProjectAllAttributes()` bound to the child
cursor's schema. -/
def boundSortProjector (result_projector : Option (List Nat))
    (childSchema : List (String × DataType)) : List Nat :=
  match result_projector with
  | none => projectAllAttributesBound childSchema
  | some p => p

/-- The result schema of a bound single-source projector: the projected
attributes of the source schema, in projector order. -/
def projectedSchema (schema : List (String × DataType)) (proj : List Nat) :
    List (String × DataType) :=
  proj.map (fun i => schema.getD i ("", DataType.STRING))

/-! ### `BoundConcatExpression` (string_bound_expressions.cc) -/

/-- One (stringified) argument of a bound Concat: its per-row string data,
its per-row null mask, and its schema nullability. -/
structure ConcatArg where
  data : Nat → String
  isNull : Nat → Bool
  nullable : Bool

/-- Modelled from the spec (§5.2, the skip-vector protocol): each argument's
`DoEvaluate` marks its null rows in the shared skip vector, so after the
argument-evaluation loop (string_bound_expressions.cc lines 80-85) the skip
vector holds the input skips OR-ed with every argument's nulls. -/
def skipAfterArgs (args : List ConcatArg) (skipIn : Nat → Bool) : Nat → Bool :=
  fun i => skipIn i || args.any (fun a => a.isNull i)

/-- One row of the concatenation loop (lines 100-110 / 115-124): the
arguments' strings at row `i`, appended in argument order. -/
def concatRow (args : List ConcatArg) (i : Nat) : String :=
  (args.map (fun a => a.data i)).foldr (fun s t => s ++ t) ""

/-- The view a `DoEvaluate` returns: row count, column data and null mask. -/
structure ResultView where
  rowCount : Nat
  data : Nat → String
  isNull : Nat → Bool

/-- `BoundConcatExpression::DoEvaluate` (string_bound_expressions.cc lines
74-134).  `selHigh` is the `SelectivityIsGreaterThan` outcome: the
low-selectivity branch (lines 99-111) computes every row, the
high-selectivity branch (lines 113-129) computes only non-skipped rows and
leaves the previous block contents `old` elsewhere.  Lines 131-132: the row
count is the input's row count and the null mask is reset to the skip
vector. -/
def concatDoEvaluate (args : List ConcatArg) (skipIn : Nat → Bool) (n : Nat)
    (selHigh : Bool) (old : Nat → String) : ResultView :=
  { rowCount := n
    data := fun i =>
      if selHigh then
        if skipAfterArgs args skipIn i then old i else concatRow args i
      else concatRow args i
    isNull := skipAfterArgs args skipIn }

/-- The nullability fold in `BoundConcat` (string_bound_expressions.cc lines
212-219): starts from NOT_NULLABLE and switches to NULLABLE on any nullable
argument.  `true` stands for NULLABLE. -/
def concatNullability (args : List ConcatArg) : Bool :=
  args.foldl (fun nb a => if a.nullable then true else nb) false


/-- C5: when the initial write to the materialization table copies zero rows,
`BufferingSorter::Write` flushes -- the non-empty table contents are sorted
and spilled as one run and the table is cleared -- and the write is retried
exactly once; if the retried write on the flushed table still copies zero
rows, it fails with ERROR_MEMORY_EXCEEDED, recording no rows of the view. -/
theorem C5_BufferingSorter_write_retry_once
    (keys : List (SortKeyCol α)) (st : SorterState) (data : List Nat)
    (w1 w2 : Nat) (h1 : (tableSinkWrite st.buffer data w1).2 = 0) :
    (st.buffer ≠ [] →
      bufferingSorterFlush keys st =
        { buffer := [], runs := st.runs ++ [SortView keys st.buffer] }) ∧
    ((tableSinkWrite (bufferingSorterFlush keys st).buffer data w2).2 > 0 →
      bufferingSorterWrite keys st data w1 w2 =
        Except.ok
          ({ bufferingSorterFlush keys st with
              buffer := (tableSinkWrite (bufferingSorterFlush keys st).buffer data w2).1 },
           (tableSinkWrite (bufferingSorterFlush keys st).buffer data w2).2)) ∧
    ((tableSinkWrite (bufferingSorterFlush keys st).buffer data w2).2 = 0 →
      bufferingSorterWrite keys st data w1 w2 =
        Except.error ReturnCode.ERROR_MEMORY_EXCEEDED) := by
  refine ⟨?_, ?_, ?_⟩
  · intro hne
    have hl : st.buffer.length > 0 := List.length_pos.mpr hne
    simp [bufferingSorterFlush, hl]
  · intro h2
    simp [bufferingSorterWrite, h1, h2]
  · intro h2
    simp [bufferingSorterWrite, h1, h2]

/-- Closed instance of C5: with table contents `[5]`, incoming view `[7]`,
and allocator capacities 0 then 1, the first write copies nothing and the
flush-and-retry path succeeds, spilling `[5]` as a run. -/
theorem C5_BufferingSorter_write_retry_once_witness :
    (tableSinkWrite (SorterState.mk [5] []).buffer [7] 0).2 = 0 ∧
    bufferingSorterWrite ([] : List (SortKeyCol Int)) (SorterState.mk [5] []) [7] 0 1 =
      Except.ok (SorterState.mk [7] [[5]], 1) := by
  refine ⟨rfl, ?_⟩
  have h := (C5_BufferingSorter_write_retry_once
    ([] : List (SortKeyCol Int)) (SorterState.mk [5] []) [7] 0 1 rfl).2.1
    (by decide)
  rw [h]; rfl

/-- C6: if `Writer::WriteAll` on the spill sink reports WAITING_ON_BARRIER,
`BasicMerger::AddSorted` fails with ERROR_NOT_IMPLEMENTED; if the temporary
spill file cannot be created, it fails with ERROR_TEMP_FILE_CREATION_ERROR. -/
theorem C6_AddSorted_barrier_and_temp_file_errors
    (writeAll : Except ReturnCode (List Nat)) (finalize : Except ReturnCode Unit)
    (fileBuffers : List (List Nat)) :
    addSorted true (Except.error ReturnCode.WAITING_ON_BARRIER) finalize fileBuffers =
      Except.error ReturnCode.ERROR_NOT_IMPLEMENTED ∧
    addSorted false writeAll finalize fileBuffers =
      Except.error ReturnCode.ERROR_TEMP_FILE_CREATION_ERROR := by
  constructor <;> simp [addSorted]

/-- C9: `BoundConcatExpression::DoEvaluate` returns a view whose row count
equals the input view's row count, for every argument list, skip vector,
selectivity outcome and previous block contents. -/
theorem C9_DoEvaluate_row_count_preserved (args : List ConcatArg)
    (skipIn : Nat → Bool) (n : Nat) (selHigh : Bool) (old : Nat → String) :
    (concatDoEvaluate args skipIn n selHigh old).rowCount = n := rfl

/-- A list is recovered by reading each of its positions with a default. -/
theorem map_getD_range (l : List β) (d : β) :
    (List.range l.length).map (fun i => l.getD i d) = l := by
  apply List.ext_getElem
  · simp
  · intro i h1 h2
    simp only [List.getElem_map, List.getElem_range]
    exact List.getD_eq_getElem l d h2

/-- C10: with a null result projector, `BoundSort` substitutes a projector of
all attributes of the child's schema: every column is passed through in
order, and the projected schema equals the child schema. -/
theorem C10_BoundSort_null_projector_projects_all
    (childSchema : List (String × DataType)) :
    boundSortProjector none childSchema = List.range childSchema.length ∧
    projectedSchema childSchema (boundSortProjector none childSchema) = childSchema := by
  refine ⟨rfl, ?_⟩
  simpa [projectedSchema, boundSortProjector, projectAllAttributesBound] using
    map_getD_range childSchema ("", DataType.STRING)


/-- The nullability fold of `BoundConcat` is the disjunction of the argument
nullabilities. -/
theorem foldl_nullable_eq_any (l : List ConcatArg) (b : Bool) :
    l.foldl (fun nb a => if a.nullable then true else nb) b =
      (b || l.any (fun a => a.nullable)) := by
  induction l generalizing b with
  | nil => simp
  | cons a l ih =>
    simp only [List.foldl_cons, List.any_cons, ih]
    cases ha : a.nullable <;> simp [ha]

/-- C8: in every non-skipped row, Concat evaluates to the byte-wise
concatenation of the row's argument strings in argument order (in both
selectivity branches) and the row is non-null; a row that was not skipped on
input is null exactly when some argument is null there; and the result
attribute is NULLABLE iff at least one argument attribute is NULLABLE. -/
theorem C8_Concat_bytewise_and_nullability (args : List ConcatArg)
    (skipIn : Nat → Bool) (n : Nat) (selHigh : Bool) (old : Nat → String) :
    (∀ i, skipAfterArgs args skipIn i = false →
        (concatDoEvaluate args skipIn n selHigh old).data i =
          (args.map (fun a => a.data i)).foldr (fun s t => s ++ t) "" ∧
        (concatDoEvaluate args skipIn n selHigh old).isNull i = false) ∧
    (∀ i, skipIn i = false →
        ((concatDoEvaluate args skipIn n selHigh old).isNull i = true ↔
          ∃ a ∈ args, a.isNull i = true)) ∧
    (concatNullability args = true ↔ ∃ a ∈ args, a.nullable = true) := by
  refine ⟨?_, ?_, ?_⟩
  · intro i hsk
    refine ⟨?_, hsk⟩
    simp [concatDoEvaluate, hsk, concatRow]
  · intro i hsk
    simp [concatDoEvaluate, skipAfterArgs, hsk, List.any_eq_true]
  · show args.foldl (fun nb a => if a.nullable then true else nb) false = true ↔ _
    rw [foldl_nullable_eq_any]
    simp [List.any_eq_true]

/-- The names of the effectively case-insensitive keys, in key order. -/
def ciNames (schema : String → DataType) (keys : List SortSpecKey) : List String :=
  (keys.filter (fun k => keyClass schema k)).map SortSpecKey.attribute_name

/-- The names of the effectively case-sensitive keys, in key order. -/
def csNames (schema : String → DataType) (keys : List SortSpecKey) : List String :=
  (keys.filter (fun k => !keyClass schema k)).map SortSpecKey.attribute_name

/-- The duplicate-key check returns `ok` or throws
`ERROR_INVALID_ARGUMENT_VALUE`; nothing else. -/
theorem dupCheck_ok_or_inval (schema : String → DataType) :
    ∀ (keys : List SortSpecKey) (ci cs : List String),
      extendedSortDupCheck schema keys ci cs = Except.ok () ∨
      extendedSortDupCheck schema keys ci cs =
        Except.error ReturnCode.ERROR_INVALID_ARGUMENT_VALUE := by
  intro keys
  induction keys with
  | nil => intro ci cs; left; rfl
  | cons k ks ih =>
    intro ci cs
    by_cases hc : keyClass schema k = true
    · by_cases hm : k.attribute_name ∈ ci
      · right; simp [extendedSortDupCheck, hc, hm]
      · simpa [extendedSortDupCheck, hc, hm] using ih (k.attribute_name :: ci) cs
    · by_cases hm : k.attribute_name ∈ cs
      · right; simp [extendedSortDupCheck, hc, hm]
      · simpa [extendedSortDupCheck, hc, hm] using ih ci (k.attribute_name :: cs)

/-- The duplicate-key check succeeds iff each of the two projected name lists
is duplicate-free and avoids its preloaded set. -/
theorem dupCheck_ok_iff (schema : String → DataType) :
    ∀ (keys : List SortSpecKey) (ci cs : List String),
      extendedSortDupCheck schema keys ci cs = Except.ok () ↔
        ((ciNames schema keys).Nodup ∧ (csNames schema keys).Nodup ∧
         (∀ n ∈ ciNames schema keys, n ∉ ci) ∧
         (∀ n ∈ csNames schema keys, n ∉ cs)) := by
  intro keys
  induction keys with
  | nil =>
    intro ci cs
    simp [extendedSortDupCheck, ciNames, csNames]
  | cons k ks ih =>
    intro ci cs
    by_cases hc : keyClass schema k = true
    · have hci : ciNames schema (k :: ks) =
          k.attribute_name :: ciNames schema ks := by
        simp [ciNames, List.filter_cons, hc]
      have hcs : csNames schema (k :: ks) = csNames schema ks := by
        simp [csNames, List.filter_cons, hc]
      by_cases hm : k.attribute_name ∈ ci
      · constructor
        · intro h
          exact absurd h (by simp [extendedSortDupCheck, hc, hm])
        · rintro ⟨-, -, h3, -⟩
          rw [hci] at h3
          exact absurd hm (h3 _ (List.mem_cons_self _ _))
      · rw [show extendedSortDupCheck schema (k :: ks) ci cs =
              extendedSortDupCheck schema ks (k.attribute_name :: ci) cs from by
            simp [extendedSortDupCheck, hc, hm]]
        rw [ih, hci, hcs]
        constructor
        · rintro ⟨h1, h2, h3, h4⟩
          refine ⟨List.nodup_cons.mpr ⟨?_, h1⟩, h2, ?_, h4⟩
          · intro hmem
            exact (h3 _ hmem) (List.mem_cons_self _ _)
          · intro n hn
            rcases List.mem_cons.mp hn with rfl | hn2
            · exact hm
            · intro hci2
              exact (h3 _ hn2) (List.mem_cons.mpr (Or.inr hci2))
        · rintro ⟨h1, h2, h3, h4⟩
          obtain ⟨hnm, h1s⟩ := List.nodup_cons.mp h1
          refine ⟨h1s, h2, ?_, h4⟩
          intro n hn hmem
          rcases List.mem_cons.mp hmem with rfl | hmem2
          · exact hnm hn
          · exact (h3 _ (List.mem_cons.mpr (Or.inr hn))) hmem2
    · have hci : ciNames schema (k :: ks) = ciNames schema ks := by
        simp [ciNames, List.filter_cons, hc]
      have hcs : csNames schema (k :: ks) =
          k.attribute_name :: csNames schema ks := by
        simp [csNames, List.filter_cons, hc]
      by_cases hm : k.attribute_name ∈ cs
      · constructor
        · intro h
          exact absurd h (by simp [extendedSortDupCheck, hc, hm])
        · rintro ⟨-, -, -, h4⟩
          rw [hcs] at h4
          exact absurd hm (h4 _ (List.mem_cons_self _ _))
      · rw [show extendedSortDupCheck schema (k :: ks) ci cs =
              extendedSortDupCheck schema ks ci (k.attribute_name :: cs) from by
            simp [extendedSortDupCheck, hc, hm]]
        rw [ih, hci, hcs]
        constructor
        · rintro ⟨h1, h2, h3, h4⟩
          refine ⟨h1, List.nodup_cons.mpr ⟨?_, h2⟩, h3, ?_⟩
          · intro hmem
            exact (h4 _ hmem) (List.mem_cons_self _ _)
          · intro n hn
            rcases List.mem_cons.mp hn with rfl | hn2
            · exact hm
            · intro hcs2
              exact (h4 _ hn2) (List.mem_cons.mpr (Or.inr hcs2))
        · rintro ⟨h1, h2, h3, h4⟩
          obtain ⟨hnm, h2s⟩ := List.nodup_cons.mp h2
          refine ⟨h1, h2s, h3, ?_⟩
          intro n hn hmem
          rcases List.mem_cons.mp hmem with rfl | hmem2
          · exact hnm hn
          · exact (h4 _ (List.mem_cons.mpr (Or.inr hn))) hmem2

/-- Both projected name lists are duplicate-free iff no two keys share a name
and an effective case-class. -/
theorem nodups_iff_pairwise (schema : String → DataType) (keys : List SortSpecKey) :
    ((ciNames schema keys).Nodup ∧ (csNames schema keys).Nodup) ↔
      keys.Pairwise (fun a b =>
        ¬(a.attribute_name = b.attribute_name ∧
          keyClass schema a = keyClass schema b)) := by
  induction keys with
  | nil => simp [ciNames, csNames]
  | cons k ks ih =>
    by_cases hc : keyClass schema k = true
    · have hci : ciNames schema (k :: ks) =
          k.attribute_name :: ciNames schema ks := by
        simp [ciNames, List.filter_cons, hc]
      have hcs : csNames schema (k :: ks) = csNames schema ks := by
        simp [csNames, List.filter_cons, hc]
      rw [hci, hcs, List.nodup_cons, List.pairwise_cons, ← ih]
      constructor
      · rintro ⟨⟨hnm, h1⟩, h2⟩
        refine ⟨?_, h1, h2⟩
        rintro b hb ⟨hname, hclass⟩
        apply hnm
        rw [hname]
        exact List.mem_map_of_mem _
          (List.mem_filter.mpr ⟨hb, by simp [← hclass, hc]⟩)
      · rintro ⟨hhead, h1, h2⟩
        refine ⟨⟨?_, h1⟩, h2⟩
        intro hmem
        obtain ⟨b, hbf, hbn⟩ := List.mem_map.mp hmem
        obtain ⟨hbks, hbcls⟩ := List.mem_filter.mp hbf
        exact hhead b hbks ⟨hbn.symm, by rw [hc]; simpa using hbcls.symm⟩
    · have hcf : keyClass schema k = false := by
        cases h : keyClass schema k
        · rfl
        · exact absurd h hc
      have hci : ciNames schema (k :: ks) = ciNames schema ks := by
        simp [ciNames, List.filter_cons, hcf]
      have hcs : csNames schema (k :: ks) =
          k.attribute_name :: csNames schema ks := by
        simp [csNames, List.filter_cons, hcf]
      rw [hci, hcs, List.nodup_cons, List.pairwise_cons, ← ih]
      constructor
      · rintro ⟨h1, ⟨hnm, h2⟩⟩
        refine ⟨?_, h1, h2⟩
        rintro b hb ⟨hname, hclass⟩
        apply hnm
        rw [hname]
        refine List.mem_map_of_mem _ (List.mem_filter.mpr ⟨hb, ?_⟩)
        simp [← hclass, hcf]
      · rintro ⟨hhead, h1, h2⟩
        refine ⟨h1, ⟨?_, h2⟩⟩
        intro hmem
        obtain ⟨b, hbf, hbn⟩ := List.mem_map.mp hmem
        obtain ⟨hbks, hbcls⟩ := List.mem_filter.mp hbf
        refine hhead b hbks ⟨hbn.symm, ?_⟩
        rw [hcf]
        have hb2 : keyClass schema b = false := by
          have hb3 : !keyClass schema b = true := by simpa using hbcls
          simpa using hb3
        rw [hb2]

/-- C7: `BoundExtendedSort`'s bind-time duplicate-key check fails with
ERROR_INVALID_ARGUMENT_VALUE exactly when two sort keys name the same
attribute and have the same effective case-class (case-insensitive flag on a
STRING column, or not); a same-named pair with differing effective classes is
permitted. -/
theorem C7_ExtendedSort_duplicate_key_check (schema : String → DataType)
    (keys : List SortSpecKey) :
    extendedSortDupCheck schema keys [] [] =
        Except.error ReturnCode.ERROR_INVALID_ARGUMENT_VALUE ↔
      ∃ i j, ∃ hi : i < keys.length, ∃ hj : j < keys.length, i < j ∧
        keys[i].attribute_name = keys[j].attribute_name ∧
        keyClass schema keys[i] = keyClass schema keys[j] := by
  have htot := dupCheck_ok_or_inval schema keys [] []
  have hstep : (extendedSortDupCheck schema keys [] [] =
      Except.error ReturnCode.ERROR_INVALID_ARGUMENT_VALUE) ↔
      ¬(extendedSortDupCheck schema keys [] [] = Except.ok ()) := by
    constructor
    · intro h hok2
      rw [h] at hok2
      exact absurd hok2 (by simp)
    · intro h
      rcases htot with h1 | h1
      · exact absurd h1 h
      · exact h1
  rw [hstep, dupCheck_ok_iff]
  simp only [List.not_mem_nil, not_false_iff, implies_true, and_true]
  rw [nodups_iff_pairwise, List.pairwise_iff_getElem]
  push_neg
  constructor
  · rintro ⟨i, j, hi, hj, hij, hp⟩
    exact ⟨i, j, hi, hj, hij, hp⟩
  · rintro ⟨i, j, hi, hj, hij, hp⟩
    exact ⟨i, j, hi, hj, hij, hp⟩


/-! ### C4: the external pipeline against the in-memory sort -/

/-- Comparing two view positions under a pulled-back key compares the
underlying rows. -/
theorem cellCmp_viewKey (k : SortKeyCol α) (rows : List Nat) (i j : Nat) :
    cellCmp
      { data := fun t => k.data (rows.getD t 0),
        isNull := k.isNull.map (fun nl => fun t => nl (rows.getD t 0)),
        descending := k.descending }
      i j = cellCmp k (rows.getD i 0) (rows.getD j 0) := by
  cases hn : k.isNull <;> simp [cellCmp, cellOf, hn]

/-- Comparing two view positions under the pulled-back sort order compares the
underlying rows. -/
theorem lexCmp_viewKeys (keys : List (SortKeyCol α)) (rows : List Nat) (i j : Nat) :
    lexCmp (viewKeys keys rows) i j = lexCmp keys (rows.getD i 0) (rows.getD j 0) := by
  induction keys with
  | nil => rfl
  | cons k ks ih =>
    simp only [viewKeys, List.map_cons] at *
    simp only [lexCmp]
    rw [cellCmp_viewKey]
    rcases h : cellCmp k (rows.getD i 0) (rows.getD j 0) <;> simp only [h] <;>
      try exact ih

/-- `SortView` returns a permutation of the view's rows. -/
theorem SortView_perm (keys : List (SortKeyCol α)) (rows : List Nat) :
    (SortView keys rows).Perm rows := by
  have hq := (SortPermutation_perm_sorted (viewKeys keys rows) rows.length).1
  have h2 := hq.map (fun i => rows.getD i 0)
  rw [map_getD_range rows 0] at h2
  exact h2

/-- `SortView` returns the rows in non-decreasing sort order. -/
theorem SortView_sorted_le (keys : List (SortKeyCol α)) (rows : List Nat) :
    (SortView keys rows).Pairwise (lexLe keys) := by
  have hs := (SortPermutation_perm_sorted (viewKeys keys rows) rows.length).2
  have h2 : (SortPermutation (viewKeys keys rows) rows.length).Pairwise
      (fun i j => lexLe keys (rows.getD i 0) (rows.getD j 0)) := by
    refine hs.imp ?_
    intro i j hij
    unfold lexLe
    rcases hij with h | ⟨h, _⟩
    · unfold lexLt at h
      rw [lexCmp_viewKeys] at h
      rw [h]
      simp
    · unfold lexEq at h
      rw [lexCmp_viewKeys] at h
      rw [h]
      simp
  exact List.pairwise_map.mpr h2


/-- The k-way merge returns a permutation of the concatenated inputs. -/
theorem mergeUnionAll_perm (keys : List (SortKeyCol α)) (inputs : List (List Nat)) :
    (mergeUnionAll keys inputs).Perm inputs.flatten := by
  unfold mergeUnionAll
  have h1 := (List.mergeSort_perm
    ((inputs.enum.map (fun ci => ci.2.map (fun x => (ci.1, x)))).flatten)
    (fun a b =>
      match lexCmp keys a.2 b.2 with
      | Ordering.lt => true
      | Ordering.gt => false
      | Ordering.eq => decide (a.1 ≤ b.1))).map (fun a : Nat × Nat => a.2)
  have hr : ((inputs.enum.map (fun ci => ci.2.map (fun x => (ci.1, x)))).flatten).map
      (fun a : Nat × Nat => a.2) = inputs.flatten := by
    rw [List.map_flatten, List.map_map]
    simp only [Function.comp_def, List.map_map]
    simp only [List.map_id']
    rw [show (fun x : Nat × List Nat => x.2) =
        (Prod.snd : Nat × List Nat → List Nat) from rfl]
    rw [List.enum_map_snd]
  rw [hr] at h1
  exact h1

/-- The k-way merge returns its rows in non-decreasing sort order. -/
theorem mergeUnionAll_sorted (keys : List (SortKeyCol α)) (inputs : List (List Nat)) :
    (mergeUnionAll keys inputs).Pairwise (lexLe keys) := by
  have htrans : ∀ (a b c : Nat × Nat),
      (match lexCmp keys a.2 b.2 with
       | Ordering.lt => true
       | Ordering.gt => false
       | Ordering.eq => decide (a.1 ≤ b.1)) = true →
      (match lexCmp keys b.2 c.2 with
       | Ordering.lt => true
       | Ordering.gt => false
       | Ordering.eq => decide (b.1 ≤ c.1)) = true →
      (match lexCmp keys a.2 c.2 with
       | Ordering.lt => true
       | Ordering.gt => false
       | Ordering.eq => decide (a.1 ≤ c.1)) = true := by
    intro a b c hab hbc
    rcases h1 : lexCmp keys a.2 b.2 <;> rw [h1] at hab <;>
      rcases h2 : lexCmp keys b.2 c.2 <;> rw [h2] at hbc
    · rw [lexCmp_lt_trans h1 h2]
    · rw [← lexCmp_congr_right h2 a.2, h1]
    · exact absurd hbc (by simp)
    · rw [lexCmp_congr_left h1 c.2, h2]
    · rw [lexCmp_congr_left h1 c.2, h2]
      simp only [decide_eq_true_eq] at hab hbc ⊢
      omega
    · exact absurd hbc (by simp)
    · exact absurd hab (by simp)
    · exact absurd hab (by simp)
    · exact absurd hab (by simp)
  have htotal : ∀ (a b : Nat × Nat),
      ((match lexCmp keys a.2 b.2 with
        | Ordering.lt => true
        | Ordering.gt => false
        | Ordering.eq => decide (a.1 ≤ b.1)) ||
       (match lexCmp keys b.2 a.2 with
        | Ordering.lt => true
        | Ordering.gt => false
        | Ordering.eq => decide (b.1 ≤ a.1))) = true := by
    intro a b
    have hswap : lexCmp keys b.2 a.2 = (lexCmp keys a.2 b.2).swap := by
      rw [lexCmp_swap]
    rcases h : lexCmp keys a.2 b.2
    · simp
    · rw [h] at hswap
      rw [show Ordering.eq.swap = Ordering.eq from rfl] at hswap
      rw [hswap]
      simp only [Bool.or_eq_true, decide_eq_true_eq]
      omega
    · rw [h] at hswap
      rw [show Ordering.gt.swap = Ordering.lt from rfl] at hswap
      rw [hswap]
      simp
  have hs := List.sorted_mergeSort htrans htotal
    ((inputs.enum.map (fun ci => ci.2.map (fun x => (ci.1, x)))).flatten)
  unfold mergeUnionAll
  refine List.pairwise_map.mpr (hs.imp ?_)
  intro a b h
  unfold lexLe
  intro hgt
  rw [hgt] at h
  simp at h


/-- A successful `BufferingSorter::Write` consumes a non-empty prefix of the
view and preserves the multiset of recorded rows (spilled runs plus table). -/
theorem bufferingSorterWrite_step {keys : List (SortKeyCol α)} {st st1 : SorterState}
    {data : List Nat} {w1 w2 w : Nat}
    (h : bufferingSorterWrite keys st data w1 w2 = Except.ok (st1, w)) :
    0 < w ∧ w ≤ data.length ∧
    (st1.runs.flatten ++ st1.buffer).Perm
      (st.runs.flatten ++ st.buffer ++ data.take w) := by
  simp only [bufferingSorterWrite] at h
  by_cases h1 : (tableSinkWrite st.buffer data w1).2 > 0
  · rw [if_pos h1] at h
    simp only [Except.ok.injEq, Prod.mk.injEq] at h
    obtain ⟨hst, hw⟩ := h
    subst hw
    subst hst
    simp only [tableSinkWrite] at h1 ⊢
    refine ⟨h1, by omega, ?_⟩
    rw [show data.take (min w1 data.length) = data.take w1 from
      List.take_eq_take.mpr (by omega)]
    rw [List.append_assoc]
  · rw [if_neg h1] at h
    by_cases h2 : (tableSinkWrite (bufferingSorterFlush keys st).buffer data w2).2 > 0
    · rw [if_pos h2] at h
      simp only [Except.ok.injEq, Prod.mk.injEq] at h
      obtain ⟨hst, hw⟩ := h
      subst hw
      subst hst
      by_cases hb : st.buffer.length > 0
      · have hF : bufferingSorterFlush keys st =
            ⟨[], st.runs ++ [SortView keys st.buffer]⟩ := by
          simp [bufferingSorterFlush, hb]
        rw [hF] at h2 ⊢
        simp only [tableSinkWrite] at h2 ⊢
        refine ⟨h2, by omega, ?_⟩
        simp only [List.flatten_append, List.flatten_cons, List.flatten_nil,
          List.append_nil, List.nil_append]
        rw [show data.take (min w2 data.length) = data.take w2 from
          List.take_eq_take.mpr (by omega)]
        exact (List.Perm.append_left st.runs.flatten
          (SortView_perm keys st.buffer)).append_right (data.take w2)
      · have hb0 : st.buffer = [] := by
          cases hbuf : st.buffer
          · rfl
          · rw [hbuf] at hb
            simp at hb
        have hF : bufferingSorterFlush keys st = st := by
          simp [bufferingSorterFlush, hb]
        rw [hF] at h2 ⊢
        simp only [tableSinkWrite] at h2 ⊢
        refine ⟨h2, by omega, ?_⟩
        rw [show data.take (min w2 data.length) = data.take w2 from
          List.take_eq_take.mpr (by omega)]
        rw [hb0]
        simp
    · rw [if_neg h2] at h
      exact absurd h (by simp)

/-- Driving the sorter over an input stream preserves the multiset of
recorded rows: on success, spilled runs plus table hold exactly the prior
contents plus the input. -/
theorem driveSorter_perm {keys : List (SortKeyCol α)} :
    ∀ (oracle : List (Nat × Nat)) (input : List Nat) (st stf : SorterState),
      driveSorter keys st input oracle = Except.ok stf →
      (stf.runs.flatten ++ stf.buffer).Perm
        (st.runs.flatten ++ st.buffer ++ input) := by
  intro oracle
  induction oracle with
  | nil =>
    intro input st stf h
    cases input with
    | nil =>
      simp only [driveSorter, Except.ok.injEq] at h
      subst h
      simp
    | cons d ds => simp [driveSorter] at h
  | cons o rest ih =>
    intro input st stf h
    cases input with
    | nil =>
      simp only [driveSorter, Except.ok.injEq] at h
      subst h
      simp
    | cons d ds =>
      obtain ⟨w1, w2⟩ := o
      rw [driveSorter] at h
      rcases hw : bufferingSorterWrite keys st (d :: ds) w1 w2 with e | p
      · rw [hw] at h
        exact absurd h (by simp)
      · obtain ⟨st1, w⟩ := p
        rw [hw] at h
        simp only at h
        obtain ⟨-, -, hperm⟩ := bufferingSorterWrite_step hw
        have h2 := ih _ _ _ h
        refine h2.trans ?_
        refine (hperm.append_right ((d :: ds).drop w)).trans ?_
        rw [List.append_assoc, List.append_assoc, List.take_append_drop]
        simp [List.append_assoc]

/-- Two lists sorted by the same relation that are permutations of each other
are equal, provided the relation is antisymmetric on their elements. -/
theorem eq_of_perm_of_sorted_antisymm {R : Nat → Nat → Prop} :
    ∀ {l1 l2 : List Nat}, l1.Perm l2 → l1.Pairwise R → l2.Pairwise R →
      (∀ x ∈ l1, ∀ y ∈ l1, R x y → R y x → x = y) → l1 = l2 := by
  intro l1
  induction l1 with
  | nil =>
    intro l2 hp _ _ _
    exact (hp.symm.eq_nil).symm
  | cons a t1 ih =>
    intro l2 hp h1 h2 hanti
    cases l2 with
    | nil => exact absurd hp.eq_nil (by simp)
    | cons b t2 =>
      by_cases hab : a = b
      · subst hab
        have hp2 := hp.cons_inv
        have ht := ih hp2 (List.pairwise_cons.mp h1).2 (List.pairwise_cons.mp h2).2
          (fun x hx y hy => hanti x (List.mem_cons_of_mem _ hx) y (List.mem_cons_of_mem _ hy))
        rw [ht]
      · exfalso
        have ha2 : a ∈ b :: t2 := hp.subset (List.mem_cons_self _ _)
        have hb1 : b ∈ a :: t1 := hp.symm.subset (List.mem_cons_self _ _)
        have ha2t : a ∈ t2 := by
          rcases List.mem_cons.mp ha2 with hh | hh
          · exact absurd hh hab
          · exact hh
        have hb1t : b ∈ t1 := by
          rcases List.mem_cons.mp hb1 with hh | hh
          · exact absurd hh.symm hab
          · exact hh
        have hRab : R a b := (List.pairwise_cons.mp h1).1 b hb1t
        have hRba : R b a := (List.pairwise_cons.mp h2).1 a ha2t
        exact hab (hanti a (List.mem_cons_self _ _) b (List.mem_cons_of_mem _ hb1t)
          hRab hRba)


/-- C4 (amended): when no two distinct input rows compare equal under all sort
keys, the external (spilling) sort produces exactly the same output sequence
as the in-memory sort of the same input: for every successful run of the
sorter over the input stream, under any allocator behaviour, the merged
result equals `SortView` of the whole input.  (Without the distinctness
hypothesis this fails: the spilled runs are merged most-recently-spilled
first, so equal-key rows in different runs lose their input order — see the
counterexample.) -/
theorem C4_external_sort_eq_in_memory_on_distinct_keys
    (keys : List (SortKeyCol α)) (n : Nat) (oracle : List (Nat × Nat))
    (stf : SorterState)
    (hdrive : driveSorter keys ⟨[], []⟩ (List.range n) oracle = Except.ok stf)
    (hdist : ∀ x y, x < n → y < n → lexEq keys x y → x = y) :
    bufferingSorterResult keys stf = SortView keys (List.range n) := by
  have hcontent : (stf.runs.flatten ++ stf.buffer).Perm (List.range n) := by
    have h := driveSorter_perm oracle (List.range n) ⟨[], []⟩ stf hdrive
    simpa using h
  have hLperm : (bufferingSorterResult keys stf).Perm (List.range n) := by
    unfold bufferingSorterResult
    by_cases hr : stf.runs.isEmpty
    · rw [if_pos hr]
      have hrn : stf.runs = [] := by
        cases hruns : stf.runs
        · rfl
        · rw [hruns] at hr
          simp at hr
      refine (SortView_perm keys stf.buffer).trans ?_
      rw [hrn] at hcontent
      simpa using hcontent
    · rw [if_neg hr]
      refine (mergeUnionAll_perm keys _).trans ?_
      unfold mergerMergeInputs
      simp only [List.flatten_append, List.flatten_cons, List.flatten_nil,
        List.append_nil]
      refine List.Perm.trans ?_ hcontent
      exact ((List.reverse_perm stf.runs).flatten).append (SortView_perm keys stf.buffer)
  have hLsorted : (bufferingSorterResult keys stf).Pairwise (lexLe keys) := by
    unfold bufferingSorterResult
    by_cases hr : stf.runs.isEmpty
    · rw [if_pos hr]
      exact SortView_sorted_le keys stf.buffer
    · rw [if_neg hr]
      exact mergeUnionAll_sorted keys _
  have hRperm : (SortView keys (List.range n)).Perm (List.range n) :=
    SortView_perm _ _
  have hRsorted := SortView_sorted_le keys (List.range n)
  apply eq_of_perm_of_sorted_antisymm (hLperm.trans hRperm.symm) hLsorted hRsorted
  intro x hx y hy hxy hyx
  have hx2 : x < n := by
    have := hLperm.subset hx
    simpa [List.mem_range] using this
  have hy2 : y < n := by
    have := hLperm.subset hy
    simpa [List.mem_range] using this
  unfold lexLe at hxy hyx
  rcases h : lexCmp keys x y
  · exfalso
    apply hyx
    rw [← lexCmp_swap, h]
    rfl
  · exact hdist x y hx2 hy2 h
  · exact absurd h hxy


/-- Closed instance of the amended C4: one key column holding distinct values,
input rows `0, 1`, a quota trace that spills `[0]` as a run and retains `[1]`;
the merged result equals the in-memory sort. -/
theorem C4_external_sort_eq_in_memory_on_distinct_keys_witness :
    driveSorter [(⟨fun i => (i : Int), none, false⟩ : SortKeyCol Int)]
        ⟨[], []⟩ (List.range 2) [(1, 1), (0, 1)] =
      Except.ok ⟨[1], [[0]]⟩ ∧
    (∀ x y, x < 2 → y < 2 →
        lexEq [(⟨fun i => (i : Int), none, false⟩ : SortKeyCol Int)] x y → x = y) ∧
    bufferingSorterResult [(⟨fun i => (i : Int), none, false⟩ : SortKeyCol Int)] ⟨[1], [[0]]⟩ =
      SortView [(⟨fun i => (i : Int), none, false⟩ : SortKeyCol Int)] (List.range 2) := by
  have h1 : driveSorter [(⟨fun i => (i : Int), none, false⟩ : SortKeyCol Int)]
      ⟨[], []⟩ (List.range 2) [(1, 1), (0, 1)] = Except.ok ⟨[1], [[0]]⟩ := by
    simp [driveSorter, bufferingSorterWrite, tableSinkWrite, bufferingSorterFlush,
          SortView, viewKeys, SortPermutation, sortColumnsLoop, SortColumn, SortRange,
          SortNonNullRange, permutationSort, lessThanComparator, List.mergeSort,
          show (List.range 1 : List Nat) = [0] from rfl,
          show (List.range 2 : List Nat) = [0, 1] from rfl]
  have h2 : ∀ x y, x < 2 → y < 2 →
      lexEq [(⟨fun i => (i : Int), none, false⟩ : SortKeyCol Int)] x y → x = y := by
    intro x y _ _ h
    have hc : compare (x : Int) (y : Int) = Ordering.eq := by
      by_contra hne
      rcases hcc : compare (x : Int) (y : Int)
      · unfold lexEq at h
        simp [lexCmp, cellCmp, cellOf, optCmp, hcc] at h
      · exact hne hcc
      · unfold lexEq at h
        simp [lexCmp, cellCmp, cellOf, optCmp, hcc] at h
    have hxy : (x : Int) = (y : Int) := compare_eq_iff_eq.mp hc
    exact_mod_cast hxy
  exact ⟨h1, h2,
    C4_external_sort_eq_in_memory_on_distinct_keys _ 2 _ _ h1 h2⟩

/-- C4 counterexample: input rows `0, 1, 2` all equal under a single constant
key.  With a quota trace that passes one row at a time (as a quota slightly
above one row's size does), two runs `[0]` and `[1]` are spilled and row `2`
stays in the table; `BasicMerger::Merge` opens the spilled runs most recently
spilled first, so the merged output is `[1, 0, 2]`.  The same pipeline with
memory for all three rows never spills and returns `[0, 1, 2]`: the external
sort does not equal the in-memory sort (it also violates stability). -/
theorem C4_merge_reverses_spill_order_counterexample :
    driveSorter [(⟨fun _ => (0 : Int), none, false⟩ : SortKeyCol Int)]
        ⟨[], []⟩ [0, 1, 2] [(1, 1), (0, 1), (0, 1)] =
      Except.ok ⟨[2], [[0], [1]]⟩ ∧
    bufferingSorterResult [(⟨fun _ => (0 : Int), none, false⟩ : SortKeyCol Int)] ⟨[2], [[0], [1]]⟩ =
      [1, 0, 2] ∧
    driveSorter [(⟨fun _ => (0 : Int), none, false⟩ : SortKeyCol Int)]
        ⟨[], []⟩ [0, 1, 2] [(3, 3)] = Except.ok ⟨[0, 1, 2], []⟩ ∧
    bufferingSorterResult [(⟨fun _ => (0 : Int), none, false⟩ : SortKeyCol Int)] ⟨[0, 1, 2], []⟩ =
      [0, 1, 2] ∧
    ([1, 0, 2] : List Nat) ≠ [0, 1, 2] := by
  refine ⟨?_, ?_, ?_, ?_, by decide⟩
  · simp [driveSorter, bufferingSorterWrite, tableSinkWrite, bufferingSorterFlush,
          SortView, viewKeys, SortPermutation, sortColumnsLoop, SortColumn, SortRange,
          SortNonNullRange, permutationSort, lessThanComparator, List.mergeSort,
          show (List.range 1 : List Nat) = [0] from rfl]
  · simp [bufferingSorterResult, mergerMergeInputs, mergeUnionAll, SortView, viewKeys,
          SortPermutation, sortColumnsLoop, SortColumn, SortRange, SortNonNullRange,
          permutationSort, lessThanComparator, List.mergeSort, lexCmp, cellCmp,
          cellOf, optCmp, List.enum, List.enumFrom, List.merge,
          show compare (0 : Int) 0 = Ordering.eq from by decide,
          show (List.range 1 : List Nat) = [0] from rfl]
  · simp [driveSorter, bufferingSorterWrite, tableSinkWrite, bufferingSorterFlush,
          SortView, viewKeys, SortPermutation, sortColumnsLoop, SortColumn, SortRange,
          SortNonNullRange, permutationSort, lessThanComparator, List.mergeSort,
          show (List.range 1 : List Nat) = [0] from rfl]
  · simp [bufferingSorterResult, mergerMergeInputs, mergeUnionAll, SortView, viewKeys,
          SortPermutation, sortColumnsLoop, SortColumn, SortRange, SortNonNullRange,
          permutationSort, lessThanComparator, List.mergeSort, lexCmp, cellCmp,
          cellOf, optCmp, List.enum, List.enumFrom, List.merge,
          show compare (0 : Int) 0 = Ordering.eq from by decide,
          show (List.range 3 : List Nat) = [0, 1, 2] from rfl]


/-- Closed instance of C3: an ascending nullable key over rows `0..4` whose
odd rows are NULL; `SortRange` on the whole range splits it into the NULL rows
followed by the non-NULL rows. -/
theorem C3_SortRange_null_placement_witness :
    (⟨fun i => (i : Int), some (fun i => decide (i % 2 = 1)), false⟩
        : SortKeyCol Int).isNull = some (fun i => decide (i % 2 = 1)) ∧
    ([0, 1, 2, 3, 4] : List Nat) = [] ++ [0, 1, 2, 3, 4] ++ [] ∧
    ([] : List Nat).length = (⟨0, 5⟩ : Range).lo ∧
    ([0, 1, 2, 3, 4] : List Nat).length =
      (⟨0, 5⟩ : Range).hi - (⟨0, 5⟩ : Range).lo ∧
    (⟨0, 5⟩ : Range).lo ≤ (⟨0, 5⟩ : Range).hi ∧
    ∃ s1 s2,
      (SortRange
          (⟨fun i => (i : Int), some (fun i => decide (i % 2 = 1)), false⟩
            : SortKeyCol Int).descending
          (⟨fun i => (i : Int), some (fun i => decide (i % 2 = 1)), false⟩
            : SortKeyCol Int).data
          (⟨fun i => (i : Int), some (fun i => decide (i % 2 = 1)), false⟩
            : SortKeyCol Int).isNull
          ⟨0, 5⟩ [] [0, 1, 2, 3, 4] true).1 = [] ++ (s1 ++ s2) ++ [] ∧
      (s1 ++ s2).Perm [0, 1, 2, 3, 4] ∧
      ((⟨fun i => (i : Int), some (fun i => decide (i % 2 = 1)), false⟩
          : SortKeyCol Int).descending = false →
        (∀ x ∈ s1, decide (x % 2 = 1) = true) ∧
        (∀ x ∈ s2, decide (x % 2 = 1) = false)) ∧
      ((⟨fun i => (i : Int), some (fun i => decide (i % 2 = 1)), false⟩
          : SortKeyCol Int).descending = true →
        (∀ x ∈ s1, decide (x % 2 = 1) = false) ∧
        (∀ x ∈ s2, decide (x % 2 = 1) = true)) ∧
      (∀ x y, decide (x % 2 = 1) = true → decide (y % 2 = 1) = true →
        cellCmp (⟨fun i => (i : Int), some (fun i => decide (i % 2 = 1)), false⟩
          : SortKeyCol Int) x y = Ordering.eq) ∧
      (∀ x y, decide (x % 2 = 1) = true → decide (y % 2 = 1) = false →
        optCmp
          (cellOf (⟨fun i => (i : Int), some (fun i => decide (i % 2 = 1)), false⟩
            : SortKeyCol Int) x)
          (cellOf (⟨fun i => (i : Int), some (fun i => decide (i % 2 = 1)), false⟩
            : SortKeyCol Int) y) = Ordering.lt) := by
  refine ⟨rfl, rfl, rfl, rfl, by decide, ?_⟩
  exact @C3_SortRange_null_placement Int _
    ⟨fun i => (i : Int), some (fun i => decide (i % 2 = 1)), false⟩
    (fun i => decide (i % 2 = 1)) rfl
    [] [0, 1, 2, 3, 4] [] [0, 1, 2, 3, 4] ⟨0, 5⟩ [] true rfl rfl rfl (by decide)

end Supersonic
